import Mathlib

/-!
# Verification of the guidance_instructor schema-to-grammar compiler

A shallow embedding of `src/guidance_instructor/guidance_instructor.py`:
the Python type shapes the compiler dispatches on, the compiled grammar
fragments it builds, the memoization caches for container fragments, the
global character allow-list, and the orchestrator's marker-based extraction
and YAML round-trip.  Theorems at the end settle the frozen claims about
this code.
-/

set_option maxHeartbeats 1600000

/-- The shapes of Python type annotations that `generate_field_by_type`
dispatches on: builtin scalars, `NoneType`, `dict[...]`/`list[...]` generic
aliases (plus generic aliases with any other origin, e.g. `set[int]`),
unions, `Enum` subclasses (represented by their YAML-escaped member values),
`BaseModel` subclasses (represented by their ordered field list:
name, required flag, metadata strings, annotation), and any other class
(e.g. `bytes`), which matches none of the strategies. -/
inductive PyType where
  | tInt : PyType
  | tFloat : PyType
  | tStr : PyType
  | tBool : PyType
  | tNone : PyType
  | tList (elem : PyType) : PyType
  | tDict (key val : PyType) : PyType
  | tGenericOther (name : String) : PyType
  | tUnion (args : List PyType) : PyType
  | tEnum (values : List String) : PyType
  | tModel (name : String) (fields : List (String × Bool × List String × PyType)) : PyType
  | tOther (name : String) : PyType

/-- One entry of `pydantic_class.model_fields`: field name, the result of
`FieldInfo.is_required()`, the metadata strings, and the annotation. -/
abbrev PyField := String × Bool × List String × PyType

/-- The argument of `generate_field_by_type`: either a bare type or a
pydantic `FieldInfo` (required flag, metadata, annotation). -/
inductive FieldInput where
  | ty (t : PyType) : FieldInput
  | finfo (required : Bool) (metadata : List String) (ann : PyType) : FieldInput

/-- A compiled guidance grammar fragment: literal text, a regex-constrained
leaf (`guidance.gen(regex=...)`), a choice (`guidance.select`), sequential
concatenation (`+`), a call of the memoized `generate_list_items(elem, depth)`
closure at a given prefix, a call of the memoized
`generate_dict_items(val, depth)` closure at a given prefix, or Python's
`None` (the initial value of `parsed_result`, returned unchanged when no
strategy matches). -/
inductive Frag where
  | fnone : Frag
  | lit (s : String) : Frag
  | regexGen (pattern : String) : Frag
  | sel (alts : List Frag) : Frag
  | seq (a b : Frag) : Frag
  | callListItems (elem : PyType) (depth : Nat) (prefixArg : String) : Frag
  | callDictItems (val : PyType) (depth : Nat) (prefixArg : String) : Frag

/-- The only exception raised by the compiler itself:
`raise Exception(f"Unsupported type: {field_type}")`. -/
inductive GenError where
  | unsupported (typeName : String) : GenError
deriving DecidableEq, Repr

/-- A display name for a type, used in the Unsupported-Type message. -/
def pyTypeName : PyType → String
  | .tInt => "int"
  | .tFloat => "float"
  | .tStr => "str"
  | .tBool => "bool"
  | .tNone => "NoneType"
  | .tList _ => "list"
  | .tDict _ _ => "dict"
  | .tGenericOther n => n
  | .tUnion _ => "Union"
  | .tEnum _ => "Enum"
  | .tModel n _ => n
  | .tOther n => n

/-- Python string repetition `s * n` (with `n ≤ 0` giving `""`). -/
def pyStrMul (s : String) : Nat → String
  | 0 => ""
  | n + 1 => s ++ pyStrMul s n

/-- The initial `UNESCAPED_STRING_CHARS` constant (module lines 14-19):
letters, digits, and the punctuation set, with the backslashes exactly as
they appear in the Python raw strings. -/
def initUnescapedStringChars : String :=
  "abcdefghijklmnopqrstuvwxyz" ++
  "ABCDEFGHIJKLMNOPQRSTUVWXYZ" ++
  "0123456789" ++
  "!@#\\$%\\^&\\*\\(\\)_\\+\x7b\x7d\\|:<>\\?\\[\\];\x27,\\./`~ "

/-- The suffix `r"\\\""` appended to form `ALL_STRING_CHARS`
(four characters: backslash, backslash, backslash, quote). -/
def allStringCharsSuffix : String := "\\\\\\\""

/-- The two module-level globals read by `generate_str`. -/
structure StrState where
  unescaped : String
  allChars : String
deriving DecidableEq, Repr

/-- The module's initial global state (lines 14-20). -/
def initStrState : StrState :=
  { unescaped := initUnescapedStringChars
    allChars := initUnescapedStringChars ++ allStringCharsSuffix }

/-- `set_allowed_chars` (lines 25-34): rebuilds `UNESCAPED_STRING_CHARS` as
each character prefixed by one backslash, and `ALL_STRING_CHARS` from it. -/
def setAllowedChars (chars : String) (_σ : StrState) : StrState :=
  let u := String.join (chars.toList.map fun c => "\\" ++ c.toString)
  { unescaped := u, allChars := u ++ allStringCharsSuffix }

/-- The regex pattern built by `generate_str` (line 53) from the current
globals: `"([U]|(\\[A]))*"` with `U`/`A` the two character classes. -/
def strRegexPattern (σ : StrState) : String :=
  "\"([" ++ σ.unescaped ++ "]|(\\\\[" ++ σ.allChars ++ "]))*\""

/-- `generate_str`: a regex-constrained fragment over the current globals. -/
def generateStrFrag (σ : StrState) : Frag := .regexGen (strRegexPattern σ)

/-- The pattern `r"\d+"` handed to the engine by `generate_int` (line 125). -/
def intRegexPattern : String := "\\d+"

/-- The pattern `r"\-?\d+\.\d+"` handed to the engine by `generate_float`
(line 143). -/
def floatRegexPattern : String := "\\-?\\d+\\.\\d+"

/-- `generate_int`: a regex-constrained fragment. -/
def generateIntFrag : Frag := .regexGen intRegexPattern

/-- `generate_float`: a regex-constrained fragment. -/
def generateFloatFrag : Frag := .regexGen floatRegexPattern

/-- `generate_bool` (lines 102-107): `guidance.select(["true", "false"])`. -/
def generateBoolFrag : Frag := .sel [.lit "true", .lit "false"]

/-- Decimal digit to character. -/
def digitToChar : Nat → Char
  | 0 => '0' | 1 => '1' | 2 => '2' | 3 => '3' | 4 => '4'
  | 5 => '5' | 6 => '6' | 7 => '7' | 8 => '8' | _ => '9'

/-- Fuel-indexed decimal rendering of a natural number. -/
def natToCharsAux : Nat → Nat → List Char
  | 0, _ => []
  | fuel + 1, n =>
    if n < 10 then [digitToChar n]
    else natToCharsAux fuel (n / 10) ++ [digitToChar (n % 10)]

/-- Decimal rendering of a natural number. -/
def natToChars (n : Nat) : List Char := natToCharsAux (n + 1) n

/-- Decimal rendering of an integer (minus sign for negatives). -/
def intToChars (i : Int) : List Char :=
  if i < 0 then '-' :: natToChars (-i).toNat else natToChars i.toNat

/-- Whether a scalar token reads as a YAML integer (optional minus then
digits). -/
def isYamlIntLit (l : List Char) : Bool :=
  match l with
  | [] => false
  | c :: rest =>
      if c = '-' then !rest.isEmpty && rest.all Char.isDigit
      else !(c :: rest).isEmpty && (c :: rest).all Char.isDigit

/-- Whether a plain string would be misread by the YAML scalar reader (it
reads as a boolean or integer, is empty, or starts with a quote), so that
`yaml.dump` renders it single-quoted.  Models the quoting decision of the
external YAML encoder on the value domain used here. -/
def needsQuotingChars (l : List Char) : Bool :=
  l.isEmpty || l == "true".toList || l == "false".toList || isYamlIntLit l ||
    (match l with | c :: _ => c = '\x27' | _ => false)

/-- One scalar value of the modelled pre-fill/generation value domain
(Python `int`, `str`, `bool`). -/
inductive Value where
  | vint (i : Int) : Value
  | vstr (s : List Char) : Value
  | vbool (b : Bool) : Value
deriving DecidableEq, Repr

/-- YAML scalar encoding of a value, as the external `yaml.dump` renders it:
integers in decimal, booleans as `true`/`false`, strings plain unless they
need quoting. -/
def encValue : Value → List Char
  | .vint i => intToChars i
  | .vbool true => "true".toList
  | .vbool false => "false".toList
  | .vstr s => if needsQuotingChars s then '\x27' :: (s ++ ['\x27']) else s

/-- `_escaped` (lines 57-67): `yaml.dump(s).strip()`, used for enum member
values; modelled by the same scalar encoder. -/
def yamlEscapeStr (s : String) : String :=
  String.mk (encValue (.vstr s.toList))

/-- `generate_enum` (lines 70-84): a choice among the YAML-escaped member
values. -/
def generateEnumFrag (values : List String) : Frag :=
  .sel (values.map fun v => .lit (yamlEscapeStr v))

/-- Models Python's `isinstance(type(x), type)` (line 363).  `type(x)` is
always a class and every class is an instance of `type`, so this holds for
every Python object whatsoever. -/
def isinstanceTypeIsType (_t : PyType) : Bool := true

/-- `_compile_context` (lines 308-321): one `#`-prefixed comment line per
metadata string, at the current indentation. -/
def compileContext (metadata : List String) (depth : Nat) : String :=
  String.intercalate "\n" (metadata.map fun line => pyStrMul "  " depth ++ "# " ++ line)

/-- Python `str.lstrip("\n")`. -/
def lstripNl (s : String) : String :=
  String.mk (s.toList.dropWhile (· = '\n'))

/-- The check `union_arg == NoneType` (line 358). -/
def isNoneType : PyType → Bool
  | .tNone => true
  | _ => false

mutual

/-- The body of `generate_field_by_type` (lines 324-387) after unwrapping a
`FieldInfo`: `isReq` is the running `is_required` flag and `t` the
unwrapped `field_type`.  Dispatch order follows the source: `GenericAlias`
(dict / list / any other origin, the last leaving `parsed_result = None`),
then unions, then — only when `isinstance(type(field_type), type)` fails,
which never happens — the Unsupported-Type raise; otherwise the scalar /
`BaseModel` / `Enum` chain, whose fall-through also leaves
`parsed_result = None`.  A non-required result is wrapped as
`select([parsed_result, "null"])`. -/
def genFieldCore (σ : StrState) (isReq : Bool) (t : PyType) (depth : Nat)
    (prefixArg : String) (skipKeys : List String) : Except GenError Frag := do
  let (isReq2, parsed) ← (do
    match t with
    | .tList elem =>
        -- generate_list (lines 277-305): select(["[]", "\n" + items(prefix)])
        pure (isReq, Frag.sel [.lit "[]",
          .seq (.lit "\n") (.callListItems elem depth prefixArg)])
    | .tDict _key val =>
        -- generate_dict (lines 204-232): select(["{}", items(prefix)])
        pure (isReq, Frag.sel [.lit "\x7b\x7d", .callDictItems val depth prefixArg])
    | .tGenericOther _ =>
        -- a GenericAlias whose origin is neither dict nor list: no branch
        -- assigns parsed_result, which stays None
        pure (isReq, Frag.fnone)
    | .tUnion args =>
        -- lines 355-362: compile each non-None alternative at the same
        -- depth; seeing NoneType clears is_required
        let (sawNone, opts) ← genUnionOptions σ args depth
        pure (isReq && !sawNone, Frag.sel opts)
    | t2 => genScalarChain σ isReq t2 depth prefixArg skipKeys)
  if isReq2 then pure parsed else pure (.sel [parsed, .lit "null"])
termination_by (sizeOf t, 2)
decreasing_by all_goals (simp_wf; omega)

/-- The tail of `generate_field_by_type`'s dispatch (lines 363-377): the
guard `isinstance(type(field_type), type)` — which holds for every Python
object — and then the scalar / `BaseModel` / `Enum` equality-and-subclass
chain.  A type matching none of the checks leaves `parsed_result = None`;
the `raise Exception(f"Unsupported type: ...")` (line 377) sits in the
`else` of the always-true guard. -/
def genScalarChain (σ : StrState) (isReq : Bool) (t : PyType) (depth : Nat)
    (prefixArg : String) (skipKeys : List String) :
    Except GenError (Bool × Frag) :=
  if isinstanceTypeIsType t then
    match t with
    | .tInt => pure (isReq, Frag.seq (.lit prefixArg) generateIntFrag)
    | .tFloat => pure (isReq, Frag.seq (.lit prefixArg) generateFloatFrag)
    | .tStr => pure (isReq, Frag.seq (.lit prefixArg) (generateStrFrag σ))
    | .tBool => pure (isReq, Frag.seq (.lit prefixArg) generateBoolFrag)
    | .tModel _ fields => do
        let fr ← generateObject σ fields depth prefixArg skipKeys
        pure (isReq, fr)
    | .tEnum values =>
        pure (isReq, Frag.seq (.lit prefixArg) (generateEnumFrag values))
    | _ =>
        -- NoneType or any other class: not a supported scalar, not a
        -- BaseModel subclass, not an Enum, so parsed_result stays None
        pure (isReq, Frag.fnone)
  else
    throw (.unsupported (pyTypeName t))
termination_by (sizeOf t, 1)
decreasing_by all_goals (simp_wf; omega)

/-- The union loop of `generate_field_by_type` (lines 356-361): returns
whether `NoneType` occurred among the arguments and the list of fragments
compiled (via `generate_field_by_type(union_arg, depth)`, i.e. bare type,
default prefix and skip set) for the remaining arguments, in order. -/
def genUnionOptions (σ : StrState) (args : List PyType) (depth : Nat) :
    Except GenError (Bool × List Frag) := do
  match args with
  | [] => pure (false, [])
  | a :: rest =>
      if isNoneType a then
        let (_, opts) ← genUnionOptions σ rest depth
        pure (true, opts)
      else do
        let f ← genFieldCore σ true a depth "" []
        let (sawNone, opts) ← genUnionOptions σ rest depth
        pure (sawNone, f :: opts)
termination_by (sizeOf args, 1)
decreasing_by all_goals (simp_wf; omega)

/-- `generate_object` (lines 390-441): choose the initial indentation from
the prefix and depth, then walk the field list. -/
def generateObject (σ : StrState) (fields : List PyField) (depth : Nat)
    (prefixArg : String) (skipKeys : List String) : Except GenError Frag :=
  let ind0 :=
    if prefixArg ≠ "" then prefixArg
    else if depth = 0 then pyStrMul "  " depth
    else "\n" ++ pyStrMul "  " depth
  genObjectFields σ fields depth ind0 false skipKeys
termination_by (sizeOf fields, 1)
decreasing_by all_goals omega

/-- The field loop of `generate_object` (lines 419-441): a field in the
skip set is skipped before any state changes; otherwise its comment block,
key label, and the dispatcher's fragment at `depth + 1` are emitted, the
indentation is reset to `"\n" + "  " * depth`, and `trailing_newline` to
`False`. -/
def genObjectFields (σ : StrState) (fields : List PyField) (depth : Nat)
    (indentation : String) (trailingNewline : Bool) (skipKeys : List String) :
    Except GenError Frag := do
  match fields with
  | [] => pure (.lit "")
  | (name, req, meta, ann) :: rest =>
      if name ∈ skipKeys then
        genObjectFields σ rest depth indentation trailingNewline skipKeys
      else
        let comment := compileContext meta depth
        let commentChunk :=
          if comment ≠ "" then
            (if !trailingNewline then "\n" else "") ++ comment ++ "\n"
          else ""
        let trailing1 := if comment ≠ "" then true else trailingNewline
        let ind1 := if trailing1 then lstripNl indentation else indentation
        let f ← genFieldCore σ req ann (depth + 1) "" []
        let restFrag ←
          genObjectFields σ rest depth ("\n" ++ pyStrMul "  " depth) false skipKeys
        pure (.seq (.lit (commentChunk ++ ind1 ++ name ++ ": ")) (.seq f restFrag))
termination_by (sizeOf fields, 0)
decreasing_by all_goals (simp_wf; omega)

end

/-- `generate_field_by_type` (lines 324-387): unwrap a `FieldInfo` into the
`is_required` flag and annotation, then dispatch. -/
def generateFieldByType (σ : StrState) (input : FieldInput) (depth : Nat)
    (prefixArg : String) (skipKeys : List String) : Except GenError Frag :=
  match input with
  | .ty t => genFieldCore σ true t depth prefixArg skipKeys
  | .finfo req _meta ann => genFieldCore σ req ann depth prefixArg skipKeys

/-- The indentation chosen inside the `generate_list_items` closure
(lines 259-263): `prefix + "- "` when a prefix is supplied, else
`"  " * (depth - 1) + "- "`. -/
def listItemsIndent (depth : Nat) (prefixArg : String) : String :=
  if prefixArg ≠ "" then prefixArg ++ "- "
  else pyStrMul "  " (depth - 1) ++ "- "

/-- One unfolding of the `generate_list_items(field_info, depth)` closure at
a prefix (lines 258-271): a choice between a single item and an item, a
newline, and a recursive continuation at the default (empty) prefix; the
item fragment is the dispatcher's, invoked with the item indentation as
prefix. -/
def listItemsBody (σ : StrState) (elem : PyType) (depth : Nat)
    (prefixArg : String) : Except GenError Frag := do
  let indentation := listItemsIndent depth prefixArg
  let f1 ← generateFieldByType σ (.ty elem) depth indentation []
  let f2 ← generateFieldByType σ (.ty elem) depth indentation []
  pure (.sel [f1, .seq f2 (.seq (.lit "\n") (.callListItems elem depth ""))])

/-- The indentation chosen inside the `generate_dict_items` closure
(lines 189-192): the supplied prefix, else `"\n" + "  " * depth`. -/
def dictItemsIndent (depth : Nat) (prefixArg : String) : String :=
  if prefixArg ≠ "" then prefixArg
  else "\n" ++ pyStrMul "  " depth

/-- `generate_key_value_pair` (lines 146-163): a generated string key,
`": "`, and the dispatcher's fragment for the value type at `depth + 1`. -/
def generateKeyValuePair (σ : StrState) (val : PyType) (depth : Nat) :
    Except GenError Frag := do
  let v ← generateFieldByType σ (.ty val) (depth + 1) "" []
  pure (.seq (generateStrFrag σ) (.seq (.lit ": ") v))

/-- One unfolding of the `generate_dict_items(value_type, depth)` closure at
a prefix (lines 187-198): a choice between one indented key-value pair and
an indented pair followed by a recursive continuation at the default
prefix. -/
def dictItemsBody (σ : StrState) (val : PyType) (depth : Nat)
    (prefixArg : String) : Except GenError Frag := do
  let indentation := dictItemsIndent depth prefixArg
  let p1 ← generateKeyValuePair σ val depth
  let p2 ← generateKeyValuePair σ val depth
  pure (.sel [.seq (.lit indentation) p1,
    .seq (.lit indentation) (.seq p2 (.callDictItems val depth ""))])

mutual

/-- Structural equality of `PyType` values, modelling equality of the
Python type objects used as memoization-cache keys. -/
def pyTypeBeq : PyType → PyType → Bool
  | .tInt, .tInt => true
  | .tFloat, .tFloat => true
  | .tStr, .tStr => true
  | .tBool, .tBool => true
  | .tNone, .tNone => true
  | .tList a, .tList b => pyTypeBeq a b
  | .tDict ka va, .tDict kb vb => pyTypeBeq ka kb && pyTypeBeq va vb
  | .tGenericOther a, .tGenericOther b => a == b
  | .tUnion xs, .tUnion ys => pyTypeListBeq xs ys
  | .tEnum xs, .tEnum ys => xs == ys
  | .tModel na fa, .tModel nb fb => na == nb && pyFieldsBeq fa fb
  | .tOther a, .tOther b => a == b
  | _, _ => false
termination_by a _ => sizeOf a
decreasing_by all_goals simp_wf <;> omega

/-- Elementwise `pyTypeBeq` on lists. -/
def pyTypeListBeq : List PyType → List PyType → Bool
  | [], [] => true
  | a :: as', b :: bs' => pyTypeBeq a b && pyTypeListBeq as' bs'
  | _, _ => false
termination_by a _ => sizeOf a
decreasing_by all_goals simp_wf <;> omega

/-- Elementwise equality on field lists. -/
def pyFieldsBeq : List PyField → List PyField → Bool
  | [], [] => true
  | (na, ra, ma, ta) :: as', (nb, rb, mb, tb) :: bs' =>
      na == nb && ra == rb && ma == mb && pyTypeBeq ta tb && pyFieldsBeq as' bs'
  | _, _ => false
termination_by a _ => sizeOf a
decreasing_by all_goals simp_wf <;> omega

end

/-- A memoization-cache key `(field_info, depth)` (lines 183, 254). -/
abbrev MemoKey := PyType × Nat

/-- Equality of cache keys. -/
def memoKeyBeq (a b : MemoKey) : Bool :=
  pyTypeBeq a.1 b.1 && a.2 == b.2

/-- The module's two cache dictionaries (`_keyvals_cache`, line 167, and
`_items_cache`, line 236) plus a counter allocating identities for newly
created closures.  A closure is represented by the `Nat` identity it was
allocated; two entries are referentially identical exactly when their
identities are equal. -/
structure GenCaches where
  itemsCache : List (MemoKey × Nat)
  keyvalsCache : List (MemoKey × Nat)
  nextId : Nat

/-- The empty initial caches. -/
def initCaches : GenCaches := ⟨[], [], 0⟩

/-- Dictionary lookup by key equality. -/
def cacheFind (c : List (MemoKey × Nat)) (k : MemoKey) : Option Nat :=
  (c.find? fun e => memoKeyBeq e.1 k).map (·.2)

/-- `generate_list_items` as a stateful cache access (lines 239-274): if the
key `(field_info, depth)` is cached, return the cached closure; otherwise
create a fresh closure, store it under the key, and return it. -/
def generateListItemsMemo (elem : PyType) (depth : Nat) (st : GenCaches) :
    GenCaches × Nat :=
  match cacheFind st.itemsCache (elem, depth) with
  | some f => (st, f)
  | none =>
      ({ st with itemsCache := ((elem, depth), st.nextId) :: st.itemsCache,
                 nextId := st.nextId + 1 }, st.nextId)

/-- `generate_dict_items` as a stateful cache access (lines 170-201),
symmetric to `generateListItemsMemo` on the key-values cache. -/
def generateDictItemsMemo (val : PyType) (depth : Nat) (st : GenCaches) :
    GenCaches × Nat :=
  match cacheFind st.keyvalsCache (val, depth) with
  | some f => (st, f)
  | none =>
      ({ st with keyvalsCache := ((val, depth), st.nextId) :: st.keyvalsCache,
                 nextId := st.nextId + 1 }, st.nextId)

/-- One module-level container-compilation call as it touches the caches:
a `generate_list_items(elem, depth)` or `generate_dict_items(val, depth)`
access with an arbitrary key. -/
inductive CacheOp where
  | listItems (elem : PyType) (depth : Nat) : CacheOp
  | dictItems (val : PyType) (depth : Nat) : CacheOp

/-- Apply one cache access to the module caches. -/
def applyCacheOp : CacheOp → GenCaches → GenCaches × Nat
  | .listItems elem depth, st => generateListItemsMemo elem depth st
  | .dictItems val depth, st => generateDictItemsMemo val depth st

/-- Run a sequence of cache accesses, keeping the final cache state. -/
def runCacheOps : List CacheOp → GenCaches → GenCaches
  | [], st => st
  | op :: rest, st => runCacheOps rest (applyCacheOp op st).1

/-- A module-level action observable by the string-generation globals:
compiling a string fragment (`generate_str`) or calling
`set_allowed_chars`. -/
inductive GlobalOp where
  | compileStr : GlobalOp
  | setAllowed (chars : String) : GlobalOp
deriving DecidableEq, Repr

/-- Run a sequence of actions against the module globals, collecting the
fragments compiled along the way in order. -/
def runGlobalOps : List GlobalOp → StrState → StrState × List Frag
  | [], σ => (σ, [])
  | .compileStr :: rest, σ =>
      let (σ2, fs) := runGlobalOps rest σ
      (σ2, generateStrFrag σ :: fs)
  | .setAllowed chars :: rest, σ =>
      runGlobalOps rest (setAllowedChars chars σ)

/-- `pat.isPrefixOf (t.drop i)`: the pattern occurs in `t` at index `i`. -/
def occursAtB (t pat : List Char) (i : Nat) : Bool :=
  pat.isPrefixOf (t.drop i)

/-- Search downward from index `k` for the greatest index at which the
pattern occurs, returning `-1` when there is none. -/
def pyRfindAux (t pat : List Char) : Nat → Int
  | 0 => if occursAtB t pat 0 then 0 else -1
  | k + 1 => if occursAtB t pat (k + 1) then ((k + 1 : Nat) : Int) else pyRfindAux t pat k

/-- Python `t.rfind(pat)`: the greatest index at which `pat` occurs in `t`,
or `-1` if it does not occur. -/
def pyRfind (t pat : List Char) : Int :=
  pyRfindAux t pat t.length

/-- Normalization of one Python slice endpoint against a length `n`:
negative indices count from the end, and endpoints are clamped to
`[0, n]`. -/
def pySliceNorm (n : Nat) (i : Int) : Nat :=
  if i < 0 then (max (i + (n : Int)) 0).toNat else min i.toNat n

/-- Python `l[a:b]`. -/
def pySlice (l : List Char) (a b : Int) : List Char :=
  (l.take (pySliceNorm l.length b)).drop (pySliceNorm l.length a)

/-- `YAML_START_MARKER` (line 21). -/
def yamlStartMarker : List Char := "\n```yaml\n".toList

/-- `YAML_END_MARKER` (line 22). -/
def yamlEndMarker : List Char := "\n```".toList

/-- The extraction step of `generate_pydantic_object` (lines 478-481):
`generation_output[generation_output.rfind(START) + len(START) :
generation_output.rfind(END)]`.  This exact string is what is handed to
`yaml.safe_load` (line 482); no preprocessing happens in between. -/
def extractYamlContent (t : List Char) : List Char :=
  pySlice t (pyRfind t yamlStartMarker + (yamlStartMarker.length : Int))
    (pyRfind t yamlEndMarker)

/-- Decimal digit value of a character (`ord(c) - ord('0')`). -/
def charToDigit (c : Char) : Nat := c.toNat - 48

/-- Parse a digit string as a natural number. -/
def parseNatChars (l : List Char) : Nat :=
  l.foldl (fun a c => a * 10 + charToDigit c) 0

/-- Parse an optionally-signed digit string as an integer. -/
def parseIntChars (l : List Char) : Int :=
  match l with
  | c :: rest => if c = '-' then -(parseNatChars rest : Int) else (parseNatChars (c :: rest) : Int)
  | _ => (parseNatChars l : Int)

/-- Read one YAML scalar token, resolving booleans, integers, and
single-quoted or plain strings, as the external YAML parser does on the
value domain used here. -/
def parseScalar (l : List Char) : Value :=
  if l = "true".toList then .vbool true
  else if l = "false".toList then .vbool false
  else if isYamlIntLit l then .vint (parseIntChars l)
  else
    match l with
    | c :: rest => if c = '\x27' then .vstr rest.dropLast else .vstr (c :: rest)
    | _ => .vstr l

/-- Split a character list at newlines (`"a\nb"` gives `["a", "b"]`;
a trailing newline yields a final empty line, as Python/YAML line splitting
does). -/
def splitLinesChars : List Char → List (List Char)
  | [] => [[]]
  | c :: rest =>
      if c = '\n' then [] :: splitLinesChars rest
      else
        match splitLinesChars rest with
        | [] => [[c]]
        | x :: xs => (c :: x) :: xs

/-- Join lines with newlines (inverse of `splitLinesChars` on
newline-free lines). -/
def intercalateNl : List (List Char) → List Char
  | [] => []
  | [x] => x
  | x :: rest => x ++ '\n' :: intercalateNl rest

/-- A line that carries no data for the YAML parser: blank, or a comment
line (first non-space character is `#`). -/
def isBlankOrCommentLine (l : List Char) : Bool :=
  match l.dropWhile (· = ' ') with
  | [] => true
  | c :: _ => c = '#' 

/-- A line that is entirely a comment (its first non-space character is
`#`). -/
def isCommentOnlyLine (l : List Char) : Bool :=
  match l.dropWhile (· = ' ') with
  | [] => false
  | c :: _ => c = '#' 

/-- Parse one `key: value` mapping line: the key is everything before the
first colon, which must be followed by a space and the scalar value. -/
def parseLineChars (l : List Char) : Option (List Char × Value) :=
  let key := l.takeWhile (· ≠ ':')
  match l.dropWhile (· ≠ ':') with
  | c1 :: c2 :: v => if c1 = ':' && c2 = ' ' then some (key, parseScalar v) else none
  | _ => none

/-- Models `yaml.safe_load` on the flat block-mapping documents this
program produces: split into lines, ignore blank and comment lines (the
YAML grammar treats comments as whitespace), and read each remaining line
as one `key: value` pair. -/
def parseYamlDoc (l : List Char) : List (List Char × Value) :=
  (splitLinesChars l).filterMap fun ln =>
    if isBlankOrCommentLine ln then none else parseLineChars ln

/-- Models `yaml.dump(kwargs, explicit_end=None)` (line 469) on a flat
mapping of scalars: one `key: value` line per entry, each terminated by a
newline.  (The external dumper also sorts keys; key order is irrelevant to
every property proved here, so entries are kept in order.) -/
def yamlDumpMap (m : List (List Char × Value)) : List Char :=
  (m.map fun kv => kv.1 ++ ':' :: ' ' :: (encValue kv.2 ++ ['\n'])).flatten

/-- The text the engine produces for the compiled remainder of a top-level
object whose generated fields take the given values: one `key: value` line
per remaining field, separated (not terminated) by newlines, as the
depth-0 object grammar lays them out. -/
def bodyLinesOf (genvals : List (List Char × Value)) : List Char :=
  intercalateNl (genvals.map fun kv => kv.1 ++ ':' :: ' ' :: encValue kv.2)

/-- The accumulated engine transcript after `generate_pydantic_object`
(lines 458-475) runs on a prior transcript `lm0`: the start marker, then —
when pre-filled values are present — their literal YAML dump, then the
engine's text for the compiled grammar of the remaining fields, then the
end marker. -/
def pydanticTranscript (lm0 : List Char) (kwargs : List (List Char × Value))
    (genBody : List Char) : List Char :=
  lm0 ++ yamlStartMarker ++
    (if kwargs.isEmpty then [] else yamlDumpMap kwargs) ++ genBody ++ yamlEndMarker

/-- The mapping `yaml.safe_load` yields from a transcript (line 482). -/
def pydanticParsedMap (t : List Char) : List (List Char × Value) :=
  parseYamlDoc (extractYamlContent t)

/-- Models `pydantic_class(**dict_content)` (line 486) at the level of
observable field values: the constructed instance holds, for each schema
field name present in the parsed mapping, the parsed value. -/
def mkPydanticInstance (fieldNames : List (List Char))
    (m : List (List Char × Value)) : List (List Char × Value) :=
  fieldNames.filterMap fun k => (List.lookup k m).map fun v => (k, v)

/-- Modelled from the spec: "Strip any line that is entirely a comment
(documentation lines) before parsing".  The code under test has no such
step; this definition exists to compare the spec's description against the
code's actual behaviour. -/
def stripCommentLinesSpec (l : List Char) : List Char :=
  intercalateNl ((splitLinesChars l).filter fun ln => !isCommentOnlyLine ln)

/-- The engine's matcher for the `generate_int` pattern `r"\d+"`: one or
more digits consuming the whole string. -/
def intMatches (s : List Char) : Bool :=
  !s.isEmpty && s.dropWhile Char.isDigit = []

/-- The matcher for `\d+\.\d+`: one or more digits, a dot, one or more
digits, consuming the whole string. -/
def digitsDotDigits (t : List Char) : Bool :=
  (!(t.takeWhile Char.isDigit).isEmpty) &&
    match t.dropWhile Char.isDigit with
    | r :: r2 => r = '.' && !r2.isEmpty && r2.dropWhile Char.isDigit = []
    | _ => false

/-- The engine's matcher for the `generate_float` pattern
`r"\-?\d+\.\d+"` (outside a character class, `\-` matches exactly `-`):
an optional leading minus — which the match must consume when present,
since `\d` cannot — then digits, a dot, and digits, consuming the whole
string. -/
def floatMatches (s : List Char) : Bool :=
  match s with
  | [] => digitsDotDigits []
  | c :: rest => if c = '-' then digitsDotDigits rest else digitsDotDigits (c :: rest)

/-- The number of leading space characters of a string. -/
def leadingSpaceCount (s : String) : Nat :=
  (s.toList.takeWhile (· = ' ')).length

/-- Bounded no-occurrence check: the pattern occurs nowhere in `t` strictly
after index `k`. -/
def noOccAfter (t pat : List Char) (k : Nat) : Prop :=
  ∀ j, k < j → j ≤ t.length → occursAtB t pat j = false

instance (t pat : List Char) (k : Nat) : Decidable (noOccAfter t pat k) :=
  decidable_of_iff (∀ j < t.length + 1, k < j → occursAtB t pat j = false) (by
    constructor
    · intro h j hk hj
      exact h j (Nat.lt_succ_of_le hj) hk
    · intro h j hj hk
      exact h j hk (Nat.lt_succ_iff.mp hj))


/-- Error-propagating elementwise compilation of a list of types. -/
def exceptMapFrag (g : PyType → Except GenError Frag) :
    List PyType → Except GenError (List Frag)
  | [] => pure []
  | a :: rest => do
      let f ← g a
      let opts ← exceptMapFrag g rest
      pure (f :: opts)

/-- The spec's description of optional-union compilation, stated as its own
function: drop the absence marker, then compile each remaining union
alternative independently (bare type, same depth, default prefix and skip
set), in declaration order. -/
def compiledUnionAlts (σ : StrState) (args : List PyType) (depth : Nat) :
    Except GenError (List Frag) :=
  exceptMapFrag (fun a => generateFieldByType σ (.ty a) depth "" [])
    (args.filter fun a => !isNoneType a)

/-- The spec's notion of "the last occurrence" of a pattern: the pattern
occurs at `i`, and no occurrence lies at a greater index.  (An occurrence
of a nonempty pattern is impossible beyond `t.length`, so the bound on `j`
loses no generality and keeps the predicate decidable.) -/
def IsLastOccurrence (t pat : List Char) (i : Nat) : Prop :=
  occursAtB t pat i = true ∧
    ∀ j, j ≤ t.length → occursAtB t pat j = true → j ≤ i

instance (t pat : List Char) (i : Nat) : Decidable (IsLastOccurrence t pat i) := by
  unfold IsLastOccurrence
  exact instDecidableAnd


/-- A plain mapping key on the modelled value domain: nonempty, made of
alphanumeric or underscore characters (hence no newline, no colon, no
leading space or `#`, and the external dumper renders it unquoted). -/
def wfKeyChars (k : List Char) : Bool :=
  !k.isEmpty && k.all fun c => c.isAlphanum || c = '_'

/-- A value whose YAML scalar encoding round-trips through the modelled
encoder and parser: strings may not contain newlines or single quotes (the
modelled dumper does not escape those). -/
def wfValueChars : Value → Bool
  | .vstr s => !s.contains '\n' && !s.contains '\x27'
  | _ => true

/-! ## Helper lemmas -/

mutual

theorem pyTypeBeq_refl : (t : PyType) → pyTypeBeq t t = true
  | .tInt => by simp [pyTypeBeq]
  | .tFloat => by simp [pyTypeBeq]
  | .tStr => by simp [pyTypeBeq]
  | .tBool => by simp [pyTypeBeq]
  | .tNone => by simp [pyTypeBeq]
  | .tList a => by simp [pyTypeBeq]; exact pyTypeBeq_refl a
  | .tDict k v => by simp [pyTypeBeq]; exact ⟨pyTypeBeq_refl k, pyTypeBeq_refl v⟩
  | .tGenericOther _ => by simp [pyTypeBeq]
  | .tUnion xs => by simp [pyTypeBeq]; exact pyTypeListBeq_refl xs
  | .tEnum _ => by simp [pyTypeBeq]
  | .tModel _ fs => by simp [pyTypeBeq]; exact pyFieldsBeq_refl fs
  | .tOther _ => by simp [pyTypeBeq]
termination_by t => sizeOf t
decreasing_by all_goals simp_wf <;> omega

theorem pyTypeListBeq_refl : (l : List PyType) → pyTypeListBeq l l = true
  | [] => by simp [pyTypeListBeq]
  | a :: rest => by
      simp [pyTypeListBeq]
      exact ⟨pyTypeBeq_refl a, pyTypeListBeq_refl rest⟩
termination_by l => sizeOf l
decreasing_by all_goals simp_wf <;> omega

theorem pyFieldsBeq_refl : (l : List PyField) → pyFieldsBeq l l = true
  | [] => by simp [pyFieldsBeq]
  | (n, r, m, t) :: rest => by
      simp [pyFieldsBeq]
      exact ⟨pyTypeBeq_refl t, pyFieldsBeq_refl rest⟩
termination_by l => sizeOf l
decreasing_by all_goals simp_wf <;> omega

end

mutual

theorem pyTypeBeq_sound : (a b : PyType) → pyTypeBeq a b = true → a = b
  | .tInt, b, h => by
      cases b with
      | tInt => rfl
      | tFloat => simp [pyTypeBeq] at h
      | tStr => simp [pyTypeBeq] at h
      | tBool => simp [pyTypeBeq] at h
      | tNone => simp [pyTypeBeq] at h
      | tList _ => simp [pyTypeBeq] at h
      | tDict _ _ => simp [pyTypeBeq] at h
      | tGenericOther _ => simp [pyTypeBeq] at h
      | tUnion _ => simp [pyTypeBeq] at h
      | tEnum _ => simp [pyTypeBeq] at h
      | tModel _ _ => simp [pyTypeBeq] at h
      | tOther _ => simp [pyTypeBeq] at h
  | .tFloat, b, h => by
      cases b with
      | tInt => simp [pyTypeBeq] at h
      | tFloat => rfl
      | tStr => simp [pyTypeBeq] at h
      | tBool => simp [pyTypeBeq] at h
      | tNone => simp [pyTypeBeq] at h
      | tList _ => simp [pyTypeBeq] at h
      | tDict _ _ => simp [pyTypeBeq] at h
      | tGenericOther _ => simp [pyTypeBeq] at h
      | tUnion _ => simp [pyTypeBeq] at h
      | tEnum _ => simp [pyTypeBeq] at h
      | tModel _ _ => simp [pyTypeBeq] at h
      | tOther _ => simp [pyTypeBeq] at h
  | .tStr, b, h => by
      cases b with
      | tInt => simp [pyTypeBeq] at h
      | tFloat => simp [pyTypeBeq] at h
      | tStr => rfl
      | tBool => simp [pyTypeBeq] at h
      | tNone => simp [pyTypeBeq] at h
      | tList _ => simp [pyTypeBeq] at h
      | tDict _ _ => simp [pyTypeBeq] at h
      | tGenericOther _ => simp [pyTypeBeq] at h
      | tUnion _ => simp [pyTypeBeq] at h
      | tEnum _ => simp [pyTypeBeq] at h
      | tModel _ _ => simp [pyTypeBeq] at h
      | tOther _ => simp [pyTypeBeq] at h
  | .tBool, b, h => by
      cases b with
      | tInt => simp [pyTypeBeq] at h
      | tFloat => simp [pyTypeBeq] at h
      | tStr => simp [pyTypeBeq] at h
      | tBool => rfl
      | tNone => simp [pyTypeBeq] at h
      | tList _ => simp [pyTypeBeq] at h
      | tDict _ _ => simp [pyTypeBeq] at h
      | tGenericOther _ => simp [pyTypeBeq] at h
      | tUnion _ => simp [pyTypeBeq] at h
      | tEnum _ => simp [pyTypeBeq] at h
      | tModel _ _ => simp [pyTypeBeq] at h
      | tOther _ => simp [pyTypeBeq] at h
  | .tNone, b, h => by
      cases b with
      | tInt => simp [pyTypeBeq] at h
      | tFloat => simp [pyTypeBeq] at h
      | tStr => simp [pyTypeBeq] at h
      | tBool => simp [pyTypeBeq] at h
      | tNone => rfl
      | tList _ => simp [pyTypeBeq] at h
      | tDict _ _ => simp [pyTypeBeq] at h
      | tGenericOther _ => simp [pyTypeBeq] at h
      | tUnion _ => simp [pyTypeBeq] at h
      | tEnum _ => simp [pyTypeBeq] at h
      | tModel _ _ => simp [pyTypeBeq] at h
      | tOther _ => simp [pyTypeBeq] at h
  | .tList x, b, h => by
      cases b with
      | tInt => simp [pyTypeBeq] at h
      | tFloat => simp [pyTypeBeq] at h
      | tStr => simp [pyTypeBeq] at h
      | tBool => simp [pyTypeBeq] at h
      | tNone => simp [pyTypeBeq] at h
      | tList y =>
          simp only [pyTypeBeq] at h
          rw [pyTypeBeq_sound x y h]
      | tDict _ _ => simp [pyTypeBeq] at h
      | tGenericOther _ => simp [pyTypeBeq] at h
      | tUnion _ => simp [pyTypeBeq] at h
      | tEnum _ => simp [pyTypeBeq] at h
      | tModel _ _ => simp [pyTypeBeq] at h
      | tOther _ => simp [pyTypeBeq] at h
  | .tDict ka va, b, h => by
      cases b with
      | tInt => simp [pyTypeBeq] at h
      | tFloat => simp [pyTypeBeq] at h
      | tStr => simp [pyTypeBeq] at h
      | tBool => simp [pyTypeBeq] at h
      | tNone => simp [pyTypeBeq] at h
      | tList _ => simp [pyTypeBeq] at h
      | tDict kb vb =>
          simp only [pyTypeBeq, Bool.and_eq_true] at h
          rw [pyTypeBeq_sound ka kb h.1, pyTypeBeq_sound va vb h.2]
      | tGenericOther _ => simp [pyTypeBeq] at h
      | tUnion _ => simp [pyTypeBeq] at h
      | tEnum _ => simp [pyTypeBeq] at h
      | tModel _ _ => simp [pyTypeBeq] at h
      | tOther _ => simp [pyTypeBeq] at h
  | .tGenericOther na, b, h => by
      cases b with
      | tInt => simp [pyTypeBeq] at h
      | tFloat => simp [pyTypeBeq] at h
      | tStr => simp [pyTypeBeq] at h
      | tBool => simp [pyTypeBeq] at h
      | tNone => simp [pyTypeBeq] at h
      | tList _ => simp [pyTypeBeq] at h
      | tDict _ _ => simp [pyTypeBeq] at h
      | tGenericOther nb =>
          simp only [pyTypeBeq] at h
          rw [eq_of_beq h]
      | tUnion _ => simp [pyTypeBeq] at h
      | tEnum _ => simp [pyTypeBeq] at h
      | tModel _ _ => simp [pyTypeBeq] at h
      | tOther _ => simp [pyTypeBeq] at h
  | .tUnion xs, b, h => by
      cases b with
      | tInt => simp [pyTypeBeq] at h
      | tFloat => simp [pyTypeBeq] at h
      | tStr => simp [pyTypeBeq] at h
      | tBool => simp [pyTypeBeq] at h
      | tNone => simp [pyTypeBeq] at h
      | tList _ => simp [pyTypeBeq] at h
      | tDict _ _ => simp [pyTypeBeq] at h
      | tGenericOther _ => simp [pyTypeBeq] at h
      | tUnion ys =>
          simp only [pyTypeBeq] at h
          rw [pyTypeListBeq_sound xs ys h]
      | tEnum _ => simp [pyTypeBeq] at h
      | tModel _ _ => simp [pyTypeBeq] at h
      | tOther _ => simp [pyTypeBeq] at h
  | .tEnum va, b, h => by
      cases b with
      | tInt => simp [pyTypeBeq] at h
      | tFloat => simp [pyTypeBeq] at h
      | tStr => simp [pyTypeBeq] at h
      | tBool => simp [pyTypeBeq] at h
      | tNone => simp [pyTypeBeq] at h
      | tList _ => simp [pyTypeBeq] at h
      | tDict _ _ => simp [pyTypeBeq] at h
      | tGenericOther _ => simp [pyTypeBeq] at h
      | tUnion _ => simp [pyTypeBeq] at h
      | tEnum vb =>
          simp only [pyTypeBeq] at h
          rw [eq_of_beq h]
      | tModel _ _ => simp [pyTypeBeq] at h
      | tOther _ => simp [pyTypeBeq] at h
  | .tModel na fa, b, h => by
      cases b with
      | tInt => simp [pyTypeBeq] at h
      | tFloat => simp [pyTypeBeq] at h
      | tStr => simp [pyTypeBeq] at h
      | tBool => simp [pyTypeBeq] at h
      | tNone => simp [pyTypeBeq] at h
      | tList _ => simp [pyTypeBeq] at h
      | tDict _ _ => simp [pyTypeBeq] at h
      | tGenericOther _ => simp [pyTypeBeq] at h
      | tUnion _ => simp [pyTypeBeq] at h
      | tEnum _ => simp [pyTypeBeq] at h
      | tModel nb fb =>
          simp only [pyTypeBeq, Bool.and_eq_true] at h
          rw [eq_of_beq h.1, pyFieldsBeq_sound fa fb h.2]
      | tOther _ => simp [pyTypeBeq] at h
  | .tOther na, b, h => by
      cases b with
      | tInt => simp [pyTypeBeq] at h
      | tFloat => simp [pyTypeBeq] at h
      | tStr => simp [pyTypeBeq] at h
      | tBool => simp [pyTypeBeq] at h
      | tNone => simp [pyTypeBeq] at h
      | tList _ => simp [pyTypeBeq] at h
      | tDict _ _ => simp [pyTypeBeq] at h
      | tGenericOther _ => simp [pyTypeBeq] at h
      | tUnion _ => simp [pyTypeBeq] at h
      | tEnum _ => simp [pyTypeBeq] at h
      | tModel _ _ => simp [pyTypeBeq] at h
      | tOther nb =>
          simp only [pyTypeBeq] at h
          rw [eq_of_beq h]
termination_by a _ => sizeOf a
decreasing_by all_goals simp_wf <;> omega

theorem pyTypeListBeq_sound : (xs ys : List PyType) → pyTypeListBeq xs ys = true → xs = ys
  | [], [], _ => rfl
  | [], _ :: _, h => by simp [pyTypeListBeq] at h
  | _ :: _, [], h => by simp [pyTypeListBeq] at h
  | x :: xs, y :: ys, h => by
      simp only [pyTypeListBeq, Bool.and_eq_true] at h
      rw [pyTypeBeq_sound x y h.1, pyTypeListBeq_sound xs ys h.2]
termination_by xs _ => sizeOf xs
decreasing_by all_goals simp_wf <;> omega

theorem pyFieldsBeq_sound : (fa fb : List PyField) → pyFieldsBeq fa fb = true → fa = fb
  | [], [], _ => rfl
  | [], _ :: _, h => by simp [pyFieldsBeq] at h
  | _ :: _, [], h => by simp [pyFieldsBeq] at h
  | (na, ra, ma, ta) :: as', (nb, rb, mb, tb) :: bs', h => by
      simp only [pyFieldsBeq, Bool.and_eq_true] at h
      rw [eq_of_beq h.1.1.1.1, eq_of_beq h.1.1.1.2, eq_of_beq h.1.1.2,
        pyTypeBeq_sound ta tb h.1.2, pyFieldsBeq_sound as' bs' h.2]
termination_by fa _ => sizeOf fa
decreasing_by all_goals simp_wf <;> omega

end

theorem memoKeyBeq_refl (k : MemoKey) : memoKeyBeq k k = true := by
  simp [memoKeyBeq, pyTypeBeq_refl]

theorem cacheFind_insert_self (c : List (MemoKey × Nat)) (k : MemoKey) (v : Nat) :
    cacheFind ((k, v) :: c) k = some v := by
  simp [cacheFind, List.find?, memoKeyBeq_refl]

theorem pyStrMul_toList (n : Nat) : (pyStrMul "  " n).toList = List.replicate (2 * n) ' ' := by
  induction n with
  | zero => rfl
  | succ k ih =>
      have h1 : (pyStrMul "  " (k + 1)).toList = ' ' :: ' ' :: (pyStrMul "  " k).toList := rfl
      rw [h1, ih, Nat.mul_succ]
      rw [show 2 * k + 2 = 2 * k + 1 + 1 from rfl]
      rw [List.replicate_succ, List.replicate_succ]

theorem takeWhile_all_append_cons {p : Char → Bool} {l : List Char} (r : Char)
    (rs : List Char) (hl : ∀ c ∈ l, p c = true) (hr : p r = false) :
    (l ++ r :: rs).takeWhile p = l := by
  induction l with
  | nil => simp [List.takeWhile, hr]
  | cons a l2 ih =>
      have ha : p a = true := hl a (by simp)
      simp only [List.cons_append, List.takeWhile_cons, ha, if_true]
      rw [ih fun c hc => hl c (by simp [hc])]

theorem dropWhile_all_append_cons {p : Char → Bool} {l : List Char} (r : Char)
    (rs : List Char) (hl : ∀ c ∈ l, p c = true) (hr : p r = false) :
    (l ++ r :: rs).dropWhile p = r :: rs := by
  induction l with
  | nil => simp [List.dropWhile, hr]
  | cons a l2 ih =>
      have ha : p a = true := hl a (by simp)
      simp only [List.cons_append, List.dropWhile_cons, ha, if_true]
      exact ih fun c hc => hl c (by simp [hc])

/-! ## Claim theorems -/

theorem memoKeyBeq_sound {a b : MemoKey} (h : memoKeyBeq a b = true) : a = b := by
  obtain ⟨a1, a2⟩ := a
  obtain ⟨b1, b2⟩ := b
  unfold memoKeyBeq at h
  rw [Bool.and_eq_true] at h
  rw [pyTypeBeq_sound a1 b1 h.1, show a2 = b2 from eq_of_beq h.2]

theorem cacheFind_cons_of_find_none {c : List (MemoKey × Nat)} {k k' : MemoKey}
    {f id : Nat} (hnone : cacheFind c k' = none) (hsome : cacheFind c k = some f) :
    cacheFind ((k', id) :: c) k = some f := by
  have hne : memoKeyBeq k' k = false := by
    cases hbe : memoKeyBeq k' k
    · rfl
    · rw [memoKeyBeq_sound hbe] at hnone
      rw [hnone] at hsome
      exact absurd hsome (by simp)
  unfold cacheFind at hsome ⊢
  rw [List.find?_cons_of_neg _ (by simpa using hne)]
  exact hsome

theorem generateListItemsMemo_find (elem : PyType) (d : Nat) (st : GenCaches) :
    cacheFind (generateListItemsMemo elem d st).1.itemsCache (elem, d) =
      some (generateListItemsMemo elem d st).2 := by
  unfold generateListItemsMemo
  cases h : cacheFind st.itemsCache (elem, d) with
  | some f => simp [h]
  | none => simp [h, cacheFind_insert_self]

theorem generateDictItemsMemo_find (val : PyType) (d : Nat) (st : GenCaches) :
    cacheFind (generateDictItemsMemo val d st).1.keyvalsCache (val, d) =
      some (generateDictItemsMemo val d st).2 := by
  unfold generateDictItemsMemo
  cases h : cacheFind st.keyvalsCache (val, d) with
  | some f => simp [h]
  | none => simp [h, cacheFind_insert_self]

theorem applyCacheOp_preserves_items (op : CacheOp) {st : GenCaches} {k : MemoKey}
    {f : Nat} (h : cacheFind st.itemsCache k = some f) :
    cacheFind (applyCacheOp op st).1.itemsCache k = some f := by
  cases op with
  | listItems e d =>
      show cacheFind (generateListItemsMemo e d st).1.itemsCache k = some f
      unfold generateListItemsMemo
      cases hf : cacheFind st.itemsCache (e, d) with
      | some g => simpa [hf] using h
      | none =>
          simp only [hf]
          exact cacheFind_cons_of_find_none hf h
  | dictItems v d =>
      show cacheFind (generateDictItemsMemo v d st).1.itemsCache k = some f
      unfold generateDictItemsMemo
      cases hf : cacheFind st.keyvalsCache (v, d) with
      | some g => simpa [hf] using h
      | none => simpa [hf] using h

theorem applyCacheOp_preserves_keyvals (op : CacheOp) {st : GenCaches} {k : MemoKey}
    {f : Nat} (h : cacheFind st.keyvalsCache k = some f) :
    cacheFind (applyCacheOp op st).1.keyvalsCache k = some f := by
  cases op with
  | listItems e d =>
      show cacheFind (generateListItemsMemo e d st).1.keyvalsCache k = some f
      unfold generateListItemsMemo
      cases hf : cacheFind st.itemsCache (e, d) with
      | some g => simpa [hf] using h
      | none => simpa [hf] using h
  | dictItems v d =>
      show cacheFind (generateDictItemsMemo v d st).1.keyvalsCache k = some f
      unfold generateDictItemsMemo
      cases hf : cacheFind st.keyvalsCache (v, d) with
      | some g => simpa [hf] using h
      | none =>
          simp only [hf]
          exact cacheFind_cons_of_find_none hf h

theorem runCacheOps_preserves_items (ops : List CacheOp) {st : GenCaches}
    {k : MemoKey} {f : Nat} (h : cacheFind st.itemsCache k = some f) :
    cacheFind (runCacheOps ops st).itemsCache k = some f := by
  induction ops generalizing st with
  | nil => exact h
  | cons op rest ih =>
      exact ih (applyCacheOp_preserves_items op h)

theorem runCacheOps_preserves_keyvals (ops : List CacheOp) {st : GenCaches}
    {k : MemoKey} {f : Nat} (h : cacheFind st.keyvalsCache k = some f) :
    cacheFind (runCacheOps ops st).keyvalsCache k = some f := by
  induction ops generalizing st with
  | nil => exact h
  | cons op rest ih =>
      exact ih (applyCacheOp_preserves_keyvals op h)

/-- C5: any two invocations of `generate_list_items` (resp.
`generate_dict_items`) with the same `(type, depth)` key return
referentially identical closures: whatever the cache state at the first
call, and whatever sequence of other cache operations — list or dict
accesses with arbitrary keys — runs in between, the later call with the
same key returns exactly the identity the first call returned.  This holds
because the caches only grow and an insertion (which happens only on a
lookup miss) can never shadow an existing key. -/
theorem c5_memoization_referential_identity (st : GenCaches) (ops : List CacheOp)
    (elem val : PyType) (dl dd : Nat) :
    (generateListItemsMemo elem dl
        (runCacheOps ops (generateListItemsMemo elem dl st).1)).2 =
      (generateListItemsMemo elem dl st).2 ∧
    (generateDictItemsMemo val dd
        (runCacheOps ops (generateDictItemsMemo val dd st).1)).2 =
      (generateDictItemsMemo val dd st).2 := by
  constructor
  · have h2 := runCacheOps_preserves_items ops (generateListItemsMemo_find elem dl st)
    conv_lhs => rw [generateListItemsMemo]
    rw [h2]
  · have h2 := runCacheOps_preserves_keyvals ops (generateDictItemsMemo_find val dd st)
    conv_lhs => rw [generateDictItemsMemo]
    rw [h2]

/-- C6 (counterexample): at depth 1 the `"- "` item marker produced by the
default path of `generate_list_items` is preceded by zero spaces, not the
`2 × depth = 2` the claim requires. -/
theorem c6_counterexample :
    leadingSpaceCount (listItemsIndent 1 "") = 0 ∧
    leadingSpaceCount (listItemsIndent 1 "") ≠ 2 * 1 := by
  constructor
  · rfl
  · decide

/-- C6 (amended): for a list compiled at depth `d ≥ 1` with the default
(empty) prefix, the item indentation is exactly `2 × (d − 1)` spaces
followed by `"- "`, so every item marker is preceded by a leading-whitespace
run of exactly `2 × (d − 1)` characters; the indentation is a function of
the depth alone, so any two fragments compiled for the same element type at
the same depth lay items out with identical leading-whitespace width. -/
theorem c6_list_indent_two_times_depth_minus_one (d : Nat) (_h : 1 ≤ d) :
    (listItemsIndent d "").toList = List.replicate (2 * (d - 1)) ' ' ++ ['-', ' '] ∧
    leadingSpaceCount (listItemsIndent d "") = 2 * (d - 1) := by
  have hform : (listItemsIndent d "").toList =
      List.replicate (2 * (d - 1)) ' ' ++ ['-', ' '] := by
    show ((pyStrMul "  " (d - 1) ++ "- " : String)).toList = _
    show (pyStrMul "  " (d - 1)).toList ++ ['-', ' '] = _
    rw [pyStrMul_toList]
  refine ⟨hform, ?_⟩
  unfold leadingSpaceCount
  rw [hform]
  rw [takeWhile_all_append_cons '-' [' ']
    (fun c hc => by rw [List.eq_of_mem_replicate hc]; rfl) (by decide)]
  exact List.length_replicate ..

/-- C6 witness: instantiation at depth 2. -/
theorem c6_list_indent_witness :
    (1 ≤ 2) ∧
      ((listItemsIndent 2 "").toList = List.replicate (2 * (2 - 1)) ' ' ++ ['-', ' '] ∧
        leadingSpaceCount (listItemsIndent 2 "") = 2 * (2 - 1)) :=
  ⟨by decide, c6_list_indent_two_times_depth_minus_one 2 (by decide)⟩

/-- Every call of the compiler returns a result: the Unsupported-Type
`raise` on line 377 is unreachable because its guard
`isinstance(type(field_type), type)` holds for every Python object. -/
theorem compiler_never_raises (σ : StrState) :
    (∀ isReq t depth p sk, ∃ f, genFieldCore σ isReq t depth p sk = Except.ok f) ∧
    (∀ isReq t depth p sk, ∃ r, genScalarChain σ isReq t depth p sk = Except.ok r) ∧
    (∀ fields depth p sk, ∃ f, generateObject σ fields depth p sk = Except.ok f) ∧
    (∀ fields depth ind tr sk, ∃ f, genObjectFields σ fields depth ind tr sk = Except.ok f) ∧
    (∀ args depth, ∃ r, genUnionOptions σ args depth = Except.ok r) := by
  refine genFieldCore.mutual_induct σ
    (fun isReq t depth p sk => ∃ f, genFieldCore σ isReq t depth p sk = Except.ok f)
    (fun isReq t depth p sk => ∃ r, genScalarChain σ isReq t depth p sk = Except.ok r)
    (fun fields depth p sk => ∃ f, generateObject σ fields depth p sk = Except.ok f)
    (fun fields depth ind tr sk => ∃ f, genObjectFields σ fields depth ind tr sk = Except.ok f)
    (fun args depth => ∃ r, genUnionOptions σ args depth = Except.ok r)
    ?_ ?_ ?_ ?_ ?_ ?_ ?_ ?_ ?_ ?_ ?_ ?_ ?_ ?_ ?_ ?_
  case _ =>
    intro isReq t depth p sk hm
    match t with
    | .tList elem =>
        simp only [genFieldCore, pure, Except.pure, bind, Except.bind]
        split <;> exact ⟨_, rfl⟩
    | .tDict k v =>
        simp only [genFieldCore, pure, Except.pure, bind, Except.bind]
        split <;> exact ⟨_, rfl⟩
    | .tGenericOther n =>
        simp only [genFieldCore, pure, Except.pure, bind, Except.bind]
        split <;> exact ⟨_, rfl⟩
    | .tUnion args =>
        obtain ⟨⟨sawNone, opts⟩, hr⟩ := hm
        simp only [genFieldCore, hr, pure, Except.pure, bind, Except.bind]
        split <;> exact ⟨_, rfl⟩
    | .tInt | .tFloat | .tStr | .tBool | .tNone | .tEnum _ | .tModel _ _ | .tOther _ =>
        obtain ⟨⟨r2, parsed⟩, hr⟩ := hm
        simp only [genFieldCore, hr, pure, Except.pure, bind, Except.bind]
        split <;> exact ⟨_, rfl⟩
  case _ =>
    intro isReq depth p sk _
    simp only [genScalarChain, isinstanceTypeIsType, if_true, pure, Except.pure]
    exact ⟨_, rfl⟩
  case _ =>
    intro isReq depth p sk _
    simp only [genScalarChain, isinstanceTypeIsType, if_true, pure, Except.pure]
    exact ⟨_, rfl⟩
  case _ =>
    intro isReq depth p sk _
    simp only [genScalarChain, isinstanceTypeIsType, if_true, pure, Except.pure]
    exact ⟨_, rfl⟩
  case _ =>
    intro isReq depth p sk _
    simp only [genScalarChain, isinstanceTypeIsType, if_true, pure, Except.pure]
    exact ⟨_, rfl⟩
  case _ =>
    intro isReq depth p sk name fields _ hm
    obtain ⟨f, hf⟩ := hm
    simp only [genScalarChain, isinstanceTypeIsType, if_true, hf, pure, Except.pure,
      bind, Except.bind]
    exact ⟨_, rfl⟩
  case _ =>
    intro isReq depth p sk values _
    simp only [genScalarChain, isinstanceTypeIsType, if_true, pure, Except.pure]
    exact ⟨_, rfl⟩
  case _ =>
    intro isReq t depth p sk _ h1 h2 h3 h4 h5 h6
    match t with
    | .tNone =>
        simp only [genScalarChain, isinstanceTypeIsType, if_true, pure, Except.pure]
        exact ⟨_, rfl⟩
    | .tOther n =>
        simp only [genScalarChain, isinstanceTypeIsType, if_true, pure, Except.pure]
        exact ⟨_, rfl⟩
    | .tList e =>
        simp only [genScalarChain, isinstanceTypeIsType, if_true, pure, Except.pure]
        exact ⟨_, rfl⟩
    | .tDict k v =>
        simp only [genScalarChain, isinstanceTypeIsType, if_true, pure, Except.pure]
        exact ⟨_, rfl⟩
    | .tGenericOther n =>
        simp only [genScalarChain, isinstanceTypeIsType, if_true, pure, Except.pure]
        exact ⟨_, rfl⟩
    | .tUnion a =>
        simp only [genScalarChain, isinstanceTypeIsType, if_true, pure, Except.pure]
        exact ⟨_, rfl⟩
    | .tInt => exact absurd rfl h1
    | .tFloat => exact absurd rfl h2
    | .tStr => exact absurd rfl h3
    | .tBool => exact absurd rfl h4
    | .tModel n fs => exact absurd rfl (h5 n fs)
    | .tEnum vs => exact absurd rfl (h6 vs)
  case _ =>
    intro isReq t depth p sk hfalse
    exact absurd (by simp [isinstanceTypeIsType]) hfalse
  case _ =>
    intro fields depth p sk ind0 hm
    obtain ⟨f, hf⟩ := hm
    exact ⟨f, by simp only [generateObject]; exact hf⟩
  case _ =>
    intro depth ind tr sk
    simp only [genObjectFields, pure, Except.pure]
    exact ⟨_, rfl⟩
  case _ =>
    intro depth ind tr sk name req meta ann rest hmem hm
    obtain ⟨f, hf⟩ := hm
    simp only [genObjectFields, hmem, if_pos, hf]
    exact ⟨_, rfl⟩
  case _ =>
    intro depth ind tr sk name req meta ann rest hmem h1 h2
    obtain ⟨f1, hf1⟩ := h1
    obtain ⟨fr, hfr⟩ := h2
    simp only [genObjectFields, hmem, hf1, hfr, pure, Except.pure, bind, Except.bind,
      if_neg, ite_false]
    split
    · exact ⟨_, rfl⟩
    · exact ⟨_, rfl⟩
  case _ =>
    intro depth
    simp only [genUnionOptions, pure, Except.pure]
    exact ⟨_, rfl⟩
  case _ =>
    intro depth a rest hnone hm
    obtain ⟨⟨sn, opts⟩, hr⟩ := hm
    simp only [genUnionOptions, hnone, if_true, hr, pure, Except.pure, bind, Except.bind]
    exact ⟨_, rfl⟩
  case _ =>
    intro depth a rest hnone h1 h2
    obtain ⟨f, hf⟩ := h1
    obtain ⟨⟨sn, opts⟩, hr⟩ := h2
    simp only [genUnionOptions, hnone, hf, hr, pure, Except.pure, bind, Except.bind,
      if_neg, ite_false, Bool.false_eq_true]
    exact ⟨_, rfl⟩

/-- C2: the claim requires every unmatched type to raise an Unsupported-Type
error, but the code never raises it: a plain class matching no strategy
(e.g. `bytes`) and a generic alias with an unsupported origin (e.g.
`set[int]`) both make `generate_field_by_type` silently return Python
`None`, and no input at all can reach the `raise` (its guard
`isinstance(type(field_type), type)` is true for every object). -/
theorem c2_unsupported_type_returns_none_not_error :
    generateFieldByType initStrState (.ty (.tOther "bytes")) 1 "" [] = .ok .fnone ∧
    generateFieldByType initStrState (.ty (.tGenericOther "set")) 1 "" [] = .ok .fnone ∧
    (∀ σ input depth p sk, ∃ f, generateFieldByType σ input depth p sk = Except.ok f) := by
  refine ⟨?_, ?_, ?_⟩
  · simp [generateFieldByType, genFieldCore, genScalarChain, isinstanceTypeIsType,
      pure, Except.pure, bind, Except.bind]
  · simp [generateFieldByType, genFieldCore, genScalarChain, isinstanceTypeIsType,
      pure, Except.pure, bind, Except.bind]
  · intro σ input depth p sk
    cases input with
    | ty t => exact (compiler_never_raises σ).1 true t depth p sk
    | finfo r m a => exact (compiler_never_raises σ).1 r a depth p sk

/-- C10 (counterexample): a field treated as not-required whose type is not
a union — a `FieldInfo` for `int` with a default — compiles to fragments
that do depend on the prefix argument: the prefix is concatenated in front
of the integer fragment inside the null-choice. -/
theorem c10_counterexample :
    generateFieldByType initStrState (.finfo false [] .tInt) 1 "" [] ≠
      generateFieldByType initStrState (.finfo false [] .tInt) 1 "- " [] := by
  simp [generateFieldByType, genFieldCore, genScalarChain, isinstanceTypeIsType,
    pure, Except.pure, bind, Except.bind]

/-- C10 (amended): for a field type that is a union containing `NoneType`,
the fragment `generate_field_by_type` returns is independent of the prefix
(and skip-set) argument — the union branch never consults them — so the
`"- "` item-marker prefix a containing list supplies is never emitted for
such a field.  (The claim's extension to every not-required field fails,
see the counterexample.) -/
theorem c10_union_fragment_prefix_independent (σ : StrState) (args : List PyType)
    (depth : Nat) (p1 p2 : String) (sk1 sk2 : List String)
    (_h : PyType.tNone ∈ args) :
    generateFieldByType σ (.ty (.tUnion args)) depth p1 sk1 =
      generateFieldByType σ (.ty (.tUnion args)) depth p2 sk2 ∧
    ∀ req meta, generateFieldByType σ (.finfo req meta (.tUnion args)) depth p1 sk1 =
      generateFieldByType σ (.finfo req meta (.tUnion args)) depth p2 sk2 := by
  constructor
  · simp only [generateFieldByType, genFieldCore]
  · intro req meta
    simp only [generateFieldByType, genFieldCore]

/-- C10 witness: the amended independence at `Optional[int]`, depth 1,
prefixes `""` and `"- "`. -/
theorem c10_union_fragment_prefix_independent_witness :
    PyType.tNone ∈ [PyType.tInt, PyType.tNone] ∧
    (generateFieldByType initStrState (.ty (.tUnion [.tInt, .tNone])) 1 "" [] =
        generateFieldByType initStrState (.ty (.tUnion [.tInt, .tNone])) 1 "- " ["x"] ∧
      ∀ req meta,
        generateFieldByType initStrState (.finfo req meta (.tUnion [.tInt, .tNone])) 1 "" [] =
          generateFieldByType initStrState (.finfo req meta (.tUnion [.tInt, .tNone])) 1 "- " ["x"]) :=
  ⟨List.Mem.tail _ (List.Mem.head _),
    c10_union_fragment_prefix_independent initStrState [.tInt, .tNone] 1 "" "- " [] ["x"]
      (List.Mem.tail _ (List.Mem.head _))⟩

theorem genUnionOptions_eq_alts (σ : StrState) (depth : Nat) :
    ∀ args : List PyType,
      genUnionOptions σ args depth =
        (do
          let opts ← compiledUnionAlts σ args depth
          pure (args.any isNoneType, opts)) := by
  intro args
  induction args with
  | nil => simp [genUnionOptions, compiledUnionAlts, exceptMapFrag, pure, Except.pure, bind, Except.bind]
  | cons a rest ih =>
      by_cases ha : isNoneType a = true
      · simp only [genUnionOptions, ha, if_true, compiledUnionAlts, List.filter_cons,
          Bool.not_eq_true', List.any_cons, Bool.true_or, ih]
        cases halts : compiledUnionAlts σ rest depth with
        | ok opts =>
            simp [compiledUnionAlts] at halts
            simp [halts, pure, Except.pure, bind, Except.bind, compiledUnionAlts, exceptMapFrag, ha]
        | error e =>
            simp [compiledUnionAlts] at halts
            simp [halts, pure, Except.pure, bind, Except.bind, compiledUnionAlts, exceptMapFrag, ha]
      · have hgen : generateFieldByType σ (.ty a) depth "" [] =
            genFieldCore σ true a depth "" [] := rfl
        simp only [genUnionOptions, ha, if_false, compiledUnionAlts, List.filter_cons,
          Bool.not_eq_true', List.any_cons, ih]
        cases hf : genFieldCore σ true a depth "" [] with
        | ok f =>
            cases halts : compiledUnionAlts σ rest depth with
            | ok opts =>
                simp [compiledUnionAlts] at halts
                simp [hf, halts, hgen, pure, Except.pure, bind, Except.bind,
                  compiledUnionAlts, exceptMapFrag, ha]
            | error e =>
                simp [compiledUnionAlts] at halts
                simp [hf, halts, hgen, pure, Except.pure, bind, Except.bind,
                  compiledUnionAlts, exceptMapFrag, ha]
        | error e =>
            simp [hf, hgen, pure, Except.pure, bind, Except.bind,
              compiledUnionAlts, exceptMapFrag, ha]

/-- C4: a field whose declared type is a union including `NoneType`
compiles — whatever its declared required flag and whatever prefix or
skip-set is supplied — to exactly a choice between the independently
compiled non-absent alternatives and the literal `"null"`; the field is
thereby treated as not-required. -/
theorem c4_optional_union_compiles_to_null_choice (σ : StrState) (args : List PyType) (depth : Nat) (p : String)
    (req : Bool) (meta : List String) (sk : List String)
    (h : PyType.tNone ∈ args) :
    generateFieldByType σ (.finfo req meta (.tUnion args)) depth p sk =
      (do
        let opts ← compiledUnionAlts σ args depth
        pure (Frag.sel [Frag.sel opts, Frag.lit "null"])) ∧
    generateFieldByType σ (.ty (.tUnion args)) depth p sk =
      (do
        let opts ← compiledUnionAlts σ args depth
        pure (Frag.sel [Frag.sel opts, Frag.lit "null"])) := by
  have hany : args.any isNoneType = true := List.any_eq_true.mpr ⟨.tNone, h, rfl⟩
  constructor
  · show genFieldCore σ req (.tUnion args) depth p sk = _
    simp only [genFieldCore, genUnionOptions_eq_alts σ depth args]
    cases halts : compiledUnionAlts σ args depth with
    | ok opts => simp [halts, hany, pure, Except.pure, bind, Except.bind]
    | error e => simp [halts, pure, Except.pure, bind, Except.bind]
  · show genFieldCore σ true (.tUnion args) depth p sk = _
    simp only [genFieldCore, genUnionOptions_eq_alts σ depth args]
    cases halts : compiledUnionAlts σ args depth with
    | ok opts => simp [halts, hany, pure, Except.pure, bind, Except.bind]
    | error e => simp [halts, pure, Except.pure, bind, Except.bind]

/-- C4 witness: `Optional[int]` (declared required) at depth 1 with an
item prefix. -/
theorem c4_optional_union_witness :
    PyType.tNone ∈ [PyType.tInt, PyType.tNone] ∧
    (generateFieldByType initStrState (.finfo true ["d"] (.tUnion [.tInt, .tNone])) 1 "- " [] =
        (do
          let opts ← compiledUnionAlts initStrState [PyType.tInt, PyType.tNone] 1
          pure (Frag.sel [Frag.sel opts, Frag.lit "null"])) ∧
      generateFieldByType initStrState (.ty (.tUnion [.tInt, .tNone])) 1 "- " [] =
        (do
          let opts ← compiledUnionAlts initStrState [PyType.tInt, PyType.tNone] 1
          pure (Frag.sel [Frag.sel opts, Frag.lit "null"]))) :=
  ⟨List.Mem.tail _ (List.Mem.head _),
    c4_optional_union_compiles_to_null_choice initStrState [.tInt, .tNone] 1 "- "
      true ["d"] [] (List.Mem.tail _ (List.Mem.head _))⟩

/-- Running a concatenation of global actions splits into runs of the
parts, threading the final state of the first into the second. -/
theorem runGlobalOps_append (ops1 ops2 : List GlobalOp) (σ : StrState) :
    runGlobalOps (ops1 ++ ops2) σ =
      ((runGlobalOps ops2 (runGlobalOps ops1 σ).1).1,
        (runGlobalOps ops1 σ).2 ++ (runGlobalOps ops2 (runGlobalOps ops1 σ).1).2) := by
  induction ops1 generalizing σ with
  | nil => simp [runGlobalOps]
  | cons op rest ih =>
      cases op with
      | compileStr => simp [runGlobalOps, ih]
      | setAllowed chars => simp [runGlobalOps, ih]

/-- C9: calling `set_allowed_chars` never changes any fragment compiled
before the call — the prefix of the fragment list emitted by the actions
before the call is exactly the list those actions emit on their own — while
every fragment compiled after the call is produced against the updated
globals, and in particular a string fragment compiled right after the call
is constrained by the regex built from the new allow-list. -/
theorem c9_set_allowed_chars_frame (ops1 ops2 : List GlobalOp) (chars : String) (σ : StrState) :
    (runGlobalOps (ops1 ++ .setAllowed chars :: ops2) σ).2.take
        (runGlobalOps ops1 σ).2.length = (runGlobalOps ops1 σ).2 ∧
    (runGlobalOps (ops1 ++ .setAllowed chars :: ops2) σ).2.drop
        (runGlobalOps ops1 σ).2.length =
      (runGlobalOps ops2 (setAllowedChars chars (runGlobalOps ops1 σ).1)).2 ∧
    (∀ rest, ops2 = GlobalOp.compileStr :: rest →
      ((runGlobalOps (ops1 ++ .setAllowed chars :: ops2) σ).2.drop
          (runGlobalOps ops1 σ).2.length).head? =
        some (generateStrFrag (setAllowedChars chars (runGlobalOps ops1 σ).1))) := by
  have hsplit := runGlobalOps_append ops1 (GlobalOp.setAllowed chars :: ops2) σ
  have hstep : runGlobalOps (GlobalOp.setAllowed chars :: ops2) (runGlobalOps ops1 σ).1 =
      runGlobalOps ops2 (setAllowedChars chars (runGlobalOps ops1 σ).1) := by
    simp [runGlobalOps]
  rw [hsplit, hstep]
  refine ⟨by simp, by simp, ?_⟩
  intro rest hrest
  subst hrest
  simp [runGlobalOps]

/-- C9 witness: one fragment compiled before and one after a
`set_allowed_chars("ab")` call. -/
theorem c9_set_allowed_chars_frame_witness :
    (runGlobalOps ([GlobalOp.compileStr] ++ .setAllowed "ab" :: [GlobalOp.compileStr])
          initStrState).2.take
        (runGlobalOps [GlobalOp.compileStr] initStrState).2.length =
      (runGlobalOps [GlobalOp.compileStr] initStrState).2 ∧
    ((runGlobalOps ([GlobalOp.compileStr] ++ .setAllowed "ab" :: [GlobalOp.compileStr])
            initStrState).2.drop
          (runGlobalOps [GlobalOp.compileStr] initStrState).2.length).head? =
      some (generateStrFrag
        (setAllowedChars "ab" (runGlobalOps [GlobalOp.compileStr] initStrState).1)) :=
  ⟨(c9_set_allowed_chars_frame [GlobalOp.compileStr] [GlobalOp.compileStr] "ab"
      initStrState).1,
    (c9_set_allowed_chars_frame [GlobalOp.compileStr] [GlobalOp.compileStr] "ab"
      initStrState).2.2 [] rfl⟩

theorem digitsDotDigits_iff (t : List Char) :
    digitsDotDigits t = true ↔
      ∃ d1 d2 : List Char, d1 ≠ [] ∧ (∀ c ∈ d1, c.isDigit = true) ∧
        d2 ≠ [] ∧ (∀ c ∈ d2, c.isDigit = true) ∧ t = d1 ++ '.' :: d2 := by
  constructor
  · intro hm
    unfold digitsDotDigits at hm
    rw [Bool.and_eq_true] at hm
    obtain ⟨h1, h2⟩ := hm
    refine ⟨t.takeWhile Char.isDigit, ?_⟩
    have hd1ne : t.takeWhile Char.isDigit ≠ [] := by
      intro hcon
      rw [hcon] at h1
      simp at h1
    have hd1dig : ∀ c ∈ t.takeWhile Char.isDigit, c.isDigit = true :=
      fun c hc => List.mem_takeWhile_imp hc
    cases hdw : t.dropWhile Char.isDigit with
    | nil => rw [hdw] at h2; simp at h2
    | cons r rs =>
        rw [hdw] at h2
        simp only [Bool.and_eq_true, decide_eq_true_eq] at h2
        obtain ⟨⟨hr, hrs⟩, hdrop⟩ := h2
        refine ⟨rs, hd1ne, hd1dig, by simpa using hrs, ?_, ?_⟩
        · exact fun c hc => List.dropWhile_eq_nil_iff.mp hdrop c hc
        · have hsplit := List.takeWhile_append_dropWhile Char.isDigit t
          rw [hdw, hr] at hsplit
          exact hsplit.symm
  · rintro ⟨d1, d2, hd1, hdig1, hd2, hdig2, rfl⟩
    unfold digitsDotDigits
    rw [takeWhile_all_append_cons '.' d2 hdig1 (by decide),
      dropWhile_all_append_cons '.' d2 hdig1 (by decide)]
    simp [List.isEmpty_iff, hd1, hd2, List.dropWhile_eq_nil_iff]
    exact hdig2

theorem floatMatches_iff (s : List Char) :
    floatMatches s = true ↔
      ∃ sgn d1 d2 : List Char, (sgn = [] ∨ sgn = ['-']) ∧
        d1 ≠ [] ∧ (∀ c ∈ d1, c.isDigit = true) ∧
        d2 ≠ [] ∧ (∀ c ∈ d2, c.isDigit = true) ∧
        s = sgn ++ d1 ++ '.' :: d2 := by
  constructor
  · intro hm
    cases s with
    | nil => simp [floatMatches, digitsDotDigits] at hm
    | cons c cs =>
        simp only [floatMatches] at hm
        by_cases hc : c = '-'
        · rw [if_pos hc] at hm
          obtain ⟨d1, d2, hd1, hdig1, hd2, hdig2, hcs⟩ := (digitsDotDigits_iff cs).mp hm
          exact ⟨['-'], d1, d2, Or.inr rfl, hd1, hdig1, hd2, hdig2, by rw [hc, hcs]; rfl⟩
        · rw [if_neg hc] at hm
          obtain ⟨d1, d2, hd1, hdig1, hd2, hdig2, hcs⟩ := (digitsDotDigits_iff _).mp hm
          exact ⟨[], d1, d2, Or.inl rfl, hd1, hdig1, hd2, hdig2, by rw [hcs]; rfl⟩
  · rintro ⟨sgn, d1, d2, hsgn, hd1, hdig1, hd2, hdig2, rfl⟩
    have hdd : digitsDotDigits (d1 ++ '.' :: d2) = true :=
      (digitsDotDigits_iff _).mpr ⟨d1, d2, hd1, hdig1, hd2, hdig2, rfl⟩
    cases hsgn with
    | inl h =>
        subst h
        obtain ⟨e, d1', rfl⟩ : ∃ e d1', d1 = e :: d1' := by
          cases d1 with
          | nil => exact absurd rfl hd1
          | cons e d1' => exact ⟨e, d1', rfl⟩
        have he : e ≠ '-' := by
          intro hcon
          have := hdig1 e (by simp)
          rw [hcon] at this
          simp at this
        show floatMatches (e :: (d1' ++ '.' :: d2)) = true
        simp only [floatMatches]
        rw [if_neg he]
        exact hdd
    | inr h =>
        subst h
        show floatMatches ('-' :: (d1 ++ '.' :: d2)) = true
        simp only [floatMatches]
        simpa using hdd

/-- C8: the integer strategy's pattern `\d+` matches exactly the nonempty
all-digit strings — so every generated integer is non-negative, with no
sign — and the float strategy's pattern `\-?\d+\.\d+` matches exactly an
optional leading minus, one or more digits, a mandatory decimal point, and
one or more digits, with no exponent notation. -/
theorem c8_scalar_regex_languages :
    (∀ s : List Char, intMatches s = true ↔ (s ≠ [] ∧ ∀ c ∈ s, c.isDigit = true)) ∧
    (∀ s : List Char, intMatches s = true → '-' ∉ s) ∧
    (∀ s : List Char, floatMatches s = true ↔
      ∃ sgn d1 d2 : List Char, (sgn = [] ∨ sgn = ['-']) ∧
        d1 ≠ [] ∧ (∀ c ∈ d1, c.isDigit = true) ∧
        d2 ≠ [] ∧ (∀ c ∈ d2, c.isDigit = true) ∧
        s = sgn ++ d1 ++ '.' :: d2) ∧
    (∀ s : List Char, floatMatches s = true → 'e' ∉ s ∧ 'E' ∉ s) := by
  have hint : ∀ s : List Char, intMatches s = true ↔ (s ≠ [] ∧ ∀ c ∈ s, c.isDigit = true) := by
    intro s
    unfold intMatches
    rw [Bool.and_eq_true]
    constructor
    · rintro ⟨h1, h2⟩
      exact ⟨by simpa [List.isEmpty_iff] using h1,
        List.dropWhile_eq_nil_iff.mp (of_decide_eq_true h2)⟩
    · rintro ⟨h1, h2⟩
      exact ⟨by simpa [List.isEmpty_iff] using h1,
        decide_eq_true (List.dropWhile_eq_nil_iff.mpr h2)⟩
  refine ⟨hint, ?_, floatMatches_iff, ?_⟩
  · intro s hm hmem
    have := ((hint s).mp hm).2 '-' hmem
    simp at this
  · intro s hm
    obtain ⟨sgn, d1, d2, hsgn, hd1, hdig1, hd2, hdig2, rfl⟩ := (floatMatches_iff s).mp hm
    constructor
    · intro hmem
      simp only [List.mem_append, List.mem_cons] at hmem
      rcases hmem with ((hs | hd) | hdot | hds)
      · cases hsgn with
        | inl h => rw [h] at hs; simp at hs
        | inr h => rw [h] at hs; simp at hs
      · have := hdig1 'e' hd
        simp at this
      · simp at hdot
      · have := hdig2 'e' hds
        simp at this
    · intro hmem
      simp only [List.mem_append, List.mem_cons] at hmem
      rcases hmem with ((hs | hd) | hdot | hds)
      · cases hsgn with
        | inl h => rw [h] at hs; simp at hs
        | inr h => rw [h] at hs; simp at hs
      · have := hdig1 'E' hd
        simp at this
      · simp at hdot
      · have := hdig2 'E' hds
        simp at this

/-- C8 witness: concrete members of both languages. -/
theorem c8_scalar_regex_languages_witness :
    intMatches "42".toList = true ∧ '-' ∉ "42".toList ∧
    floatMatches "-3.25".toList = true :=
  ⟨(c8_scalar_regex_languages.1 _).mpr (by decide),
    c8_scalar_regex_languages.2.1 _ ((c8_scalar_regex_languages.1 _).mpr (by decide)),
    (c8_scalar_regex_languages.2.2.1 _).mpr
      ⟨['-'], ['3'], ['2', '5'], Or.inr rfl, by decide, by decide, by decide, by decide,
        by decide⟩⟩

theorem occursAtB_add_length_le {t pat : List Char} {i : Nat} (hne : pat ≠ [])
    (h : occursAtB t pat i = true) : i + pat.length ≤ t.length := by
  unfold occursAtB at h
  have hpre : pat <+: t.drop i := List.isPrefixOf_iff_prefix.mp h
  have hlen := hpre.length_le
  rw [List.length_drop] at hlen
  have hpos : 0 < pat.length := List.length_pos.mpr hne
  omega

theorem pyRfindAux_eq_of {t pat : List Char} {i : Nat} (k : Nat)
    (hocc : occursAtB t pat i = true) (hik : i ≤ k)
    (hmax : ∀ j, j ≤ k → occursAtB t pat j = true → j ≤ i) :
    pyRfindAux t pat k = (i : Int) := by
  induction k with
  | zero =>
      have : i = 0 := Nat.le_zero.mp hik
      subst this
      simp [pyRfindAux, hocc]
  | succ k ih =>
      by_cases hk : occursAtB t pat (k + 1) = true
      · have h1 : k + 1 ≤ i := hmax (k + 1) (Nat.le_refl _) hk
        have h2 : i = k + 1 := Nat.le_antisymm hik h1
        subst h2
        simp [pyRfindAux, hk]
      · have hik' : i ≤ k := by
          rcases Nat.lt_or_ge i (k + 1) with h | h
          · exact Nat.lt_succ_iff.mp h
          · exact absurd (Nat.le_antisymm hik h ▸ hocc) hk
        have := ih hik' fun j hj hocc2 => hmax j (Nat.le_succ_of_le hj) hocc2
        simpa [pyRfindAux, hk] using this

theorem pyRfind_eq_of_isLastOccurrence {t pat : List Char} {i : Nat} (hne : pat ≠ [])
    (h : IsLastOccurrence t pat i) : pyRfind t pat = (i : Int) := by
  obtain ⟨hocc, hmax⟩ := h
  have hle := occursAtB_add_length_le hne hocc
  have hpos : 0 < pat.length := List.length_pos.mpr hne
  exact pyRfindAux_eq_of t.length hocc (by omega)
    fun j hj hocc2 => hmax j hj hocc2

theorem extractYamlContent_eq_between {t : List Char} {i j : Nat}
    (hi : IsLastOccurrence t yamlStartMarker i)
    (hj : IsLastOccurrence t yamlEndMarker j) :
    extractYamlContent t =
      (t.drop (i + yamlStartMarker.length)).take (j - (i + yamlStartMarker.length)) := by
  have hfs : pyRfind t yamlStartMarker = (i : Int) :=
    pyRfind_eq_of_isLastOccurrence (by decide) hi
  have hfe : pyRfind t yamlEndMarker = (j : Int) :=
    pyRfind_eq_of_isLastOccurrence (by decide) hj
  have hileg : i + yamlStartMarker.length ≤ t.length :=
    occursAtB_add_length_le (by decide) hi.1
  have hjleg : j + yamlEndMarker.length ≤ t.length :=
    occursAtB_add_length_le (by decide) hj.1
  unfold extractYamlContent pySlice
  rw [hfs, hfe]
  have hn1 : pySliceNorm t.length ((i : Int) + (yamlStartMarker.length : Int)) =
      i + yamlStartMarker.length := by
    unfold pySliceNorm
    rw [if_neg (by omega)]
    have : ((i : Int) + (yamlStartMarker.length : Int)).toNat = i + yamlStartMarker.length := by
      omega
    rw [this]
    omega
  have hn2 : pySliceNorm t.length (j : Int) = j := by
    unfold pySliceNorm
    rw [if_neg (by omega)]
    simp
    omega
  rw [hn1, hn2]
  rw [List.drop_take]

/-- C7: whenever `i` is the last occurrence of the start marker
`"\n```yaml\n"` and `j` the last occurrence of the end marker `"\n```"` in
the accumulated transcript, `generate_pydantic_object` extracts exactly the
substring strictly between them — from the end of the start marker up to
`j` — and that exact substring is what is handed to the YAML parser. -/
theorem c7_extraction_between_last_markers (t : List Char) (i j : Nat)
    (hi : IsLastOccurrence t yamlStartMarker i)
    (hj : IsLastOccurrence t yamlEndMarker j) :
    extractYamlContent t =
      (t.drop (i + yamlStartMarker.length)).take (j - (i + yamlStartMarker.length)) ∧
    pydanticParsedMap t =
      parseYamlDoc
        ((t.drop (i + yamlStartMarker.length)).take (j - (i + yamlStartMarker.length))) :=
  ⟨extractYamlContent_eq_between hi hj, by
    unfold pydanticParsedMap
    rw [extractYamlContent_eq_between hi hj]⟩

/-- C7 witness: a concrete transcript whose last marker occurrences are at
indices 0 and 16. -/
theorem c7_extraction_between_last_markers_witness :
    IsLastOccurrence "\n```yaml\nage: 30\n```".toList yamlStartMarker 0 ∧
    IsLastOccurrence "\n```yaml\nage: 30\n```".toList yamlEndMarker 16 ∧
    (extractYamlContent "\n```yaml\nage: 30\n```".toList =
        (("\n```yaml\nage: 30\n```".toList.drop (0 + yamlStartMarker.length)).take
          (16 - (0 + yamlStartMarker.length))) ∧
      pydanticParsedMap "\n```yaml\nage: 30\n```".toList =
        parseYamlDoc
          (("\n```yaml\nage: 30\n```".toList.drop (0 + yamlStartMarker.length)).take
            (16 - (0 + yamlStartMarker.length)))) :=
  ⟨by decide, by decide,
    c7_extraction_between_last_markers "\n```yaml\nage: 30\n```".toList 0 16
      (by decide) (by decide)⟩

theorem splitLines_single (x : List Char) (hx : '\n' ∉ x) : splitLinesChars x = [x] := by
  induction x with
  | nil => rfl
  | cons c cs ih =>
      have hc : c ≠ '\n' := fun h => hx (by simp [h])
      have ihr : splitLinesChars cs = [cs] := ih fun h => hx (by simp [h])
      simp only [splitLinesChars, if_neg hc, ihr]

theorem splitLines_append_newline (x rest : List Char) (hx : '\n' ∉ x) :
    splitLinesChars (x ++ '\n' :: rest) = x :: splitLinesChars rest := by
  induction x with
  | nil => simp [splitLinesChars]
  | cons c cs ih =>
      have hc : c ≠ '\n' := fun h => hx (by simp [h])
      have ihr := ih fun h => hx (by simp [h])
      simp only [List.cons_append, splitLinesChars, if_neg hc, List.append_eq]
      rw [ihr]

theorem splitLines_intercalate (ls : List (List Char)) (hne : ls ≠ [])
    (hnl : ∀ ln ∈ ls, '\n' ∉ ln) : splitLinesChars (intercalateNl ls) = ls := by
  induction ls with
  | nil => exact absurd rfl hne
  | cons x rest ih =>
      cases rest with
      | nil => exact splitLines_single x (hnl x (by simp))
      | cons y rest' =>
          have : intercalateNl (x :: y :: rest') = x ++ '\n' :: intercalateNl (y :: rest') := rfl
          rw [this, splitLines_append_newline x _ (hnl x (by simp)),
            ih (by simp) fun ln hln => hnl ln (by simp [hln])]

theorem splitLines_no_newline (l : List Char) :
    ∀ ln ∈ splitLinesChars l, '\n' ∉ ln := by
  induction l with
  | nil =>
      intro ln hln
      simp only [splitLinesChars, List.mem_singleton] at hln
      simp [hln]
  | cons c cs ih =>
      intro ln hln
      by_cases hc : c = '\n'
      · rw [show splitLinesChars (c :: cs) = [] :: splitLinesChars cs by
          simp [splitLinesChars, hc]] at hln
        rcases List.mem_cons.mp hln with h | h
        · simp [h]
        · exact ih ln h
      · rw [show splitLinesChars (c :: cs) =
            (match splitLinesChars cs with
              | [] => [[c]]
              | x :: xs => (c :: x) :: xs) by simp [splitLinesChars, hc]] at hln
        cases hsc : splitLinesChars cs with
        | nil =>
            rw [hsc] at hln
            simp only [List.mem_singleton] at hln
            subst hln
            exact fun h => hc ((List.mem_singleton.mp h).symm)
        | cons x xs =>
            rw [hsc] at hln
            rcases List.mem_cons.mp hln with h | h
            · subst h
              intro hmem
              rcases List.mem_cons.mp hmem with h | h
              · exact hc h.symm
              · exact ih x (hsc ▸ List.mem_cons_self ..) h
            · exact ih ln (hsc ▸ List.mem_cons_of_mem _ h)

theorem filterMap_filter_not_comment (g : List Char → Option (List Char × Value))
    (hg : ∀ ln, isCommentOnlyLine ln = true → g ln = none) (ls : List (List Char)) :
    (ls.filter fun ln => !isCommentOnlyLine ln).filterMap g = ls.filterMap g := by
  induction ls with
  | nil => rfl
  | cons x rest ih =>
      by_cases hx : isCommentOnlyLine x = true
      · rw [show (x :: rest).filter (fun ln => !isCommentOnlyLine ln) =
            rest.filter fun ln => !isCommentOnlyLine ln by simp [List.filter_cons, hx]]
        rw [ih, List.filterMap_cons, hg x hx]
      · rw [show (x :: rest).filter (fun ln => !isCommentOnlyLine ln) =
            x :: rest.filter fun ln => !isCommentOnlyLine ln by
          simp [List.filter_cons, hx]]
        rw [List.filterMap_cons, List.filterMap_cons, ih]

theorem isBlankOrComment_of_commentOnly (ln : List Char)
    (h : isCommentOnlyLine ln = true) : isBlankOrCommentLine ln = true := by
  unfold isCommentOnlyLine at h
  unfold isBlankOrCommentLine
  cases hd : ln.dropWhile (· = ' ') with
  | nil => rfl
  | cons c cs => rw [hd] at h; exact h

theorem parseYamlDoc_strip (doc : List Char) :
    parseYamlDoc (stripCommentLinesSpec doc) = parseYamlDoc doc := by
  have hg : ∀ ln, isCommentOnlyLine ln = true →
      (if isBlankOrCommentLine ln then none else parseLineChars ln) = none := by
    intro ln hln
    rw [if_pos (isBlankOrComment_of_commentOnly ln hln)]
  unfold stripCommentLinesSpec parseYamlDoc
  cases hk : (splitLinesChars doc).filter fun ln => !isCommentOnlyLine ln with
  | nil =>
      rw [← filterMap_filter_not_comment _ hg (splitLinesChars doc), hk]
      rfl
  | cons x xs =>
      have hnl : ∀ ln ∈ x :: xs, '\n' ∉ ln := fun ln hln =>
        splitLines_no_newline doc ln (List.mem_of_mem_filter (hk ▸ hln))
      rw [splitLines_intercalate (x :: xs) (by simp) hnl]
      rw [← filterMap_filter_not_comment _ hg (splitLinesChars doc), hk]

/-- C3 (counterexample): the extracted text is handed to the YAML parser
unchanged — on a transcript whose generated document contains the comment
line `# doc`, the text that reaches the parser still contains that line,
so it differs from its comment-stripped form; no stripping step exists. -/
theorem c3_counterexample :
    stripCommentLinesSpec (extractYamlContent "\n```yaml\n# doc\na: 1\n```".toList) ≠
      extractYamlContent "\n```yaml\n# doc\na: 1\n```".toList ∧
    "# doc".toList ∈ splitLinesChars (extractYamlContent "\n```yaml\n# doc\na: 1\n```".toList) := by
  constructor
  · decide
  · decide

/-- C3 (amended): `generate_pydantic_object` does not strip comment lines
before parsing — the extracted substring is parsed as is — but the YAML
parser itself treats comment-only lines as carrying no data, so the parsed
mapping equals what parsing the comment-stripped text would give. -/
theorem c3_comments_ignored_by_parser_not_stripped (t : List Char) :
    pydanticParsedMap t = parseYamlDoc (extractYamlContent t) ∧
    pydanticParsedMap t = parseYamlDoc (stripCommentLinesSpec (extractYamlContent t)) :=
  ⟨rfl, (parseYamlDoc_strip (extractYamlContent t)).symm⟩

theorem digitToChar_isDigit (d : Nat) : (digitToChar d).isDigit = true := by
  unfold digitToChar
  split <;> decide

theorem charToDigit_digitToChar {d : Nat} (h : d < 10) :
    charToDigit (digitToChar d) = d := by
  interval_cases d <;> decide

theorem natToCharsAux_digits (fuel n : Nat) :
    ∀ c ∈ natToCharsAux fuel n, c.isDigit = true := by
  induction fuel generalizing n with
  | zero => intro c hc; simp [natToCharsAux] at hc
  | succ fuel ih =>
      intro c hc
      unfold natToCharsAux at hc
      split at hc
      · simp only [List.mem_singleton] at hc
        subst hc
        exact digitToChar_isDigit n
      · rcases List.mem_append.mp hc with h | h
        · exact ih (n / 10) c h
        · simp only [List.mem_singleton] at h
          subst h
          exact digitToChar_isDigit (n % 10)

theorem natToCharsAux_ne_nil {fuel n : Nat} (h : n < fuel) :
    natToCharsAux fuel n ≠ [] := by
  cases fuel with
  | zero => omega
  | succ fuel =>
      unfold natToCharsAux
      split
      · simp
      · simp

theorem parseNatChars_append_singleton (l : List Char) (c : Char) :
    parseNatChars (l ++ [c]) = parseNatChars l * 10 + charToDigit c := by
  unfold parseNatChars
  rw [List.foldl_append]
  rfl

theorem parseNatChars_natToCharsAux {fuel n : Nat} (h : n < fuel) :
    parseNatChars (natToCharsAux fuel n) = n := by
  induction fuel generalizing n with
  | zero => omega
  | succ fuel ih =>
      unfold natToCharsAux
      split
      · rename_i h10
        show parseNatChars [digitToChar n] = n
        unfold parseNatChars
        simp [List.foldl, charToDigit_digitToChar h10]
      · rename_i h10
        push_neg at h10
        rw [parseNatChars_append_singleton]
        have hdiv : n / 10 < fuel := by
          have h1 : n / 10 < n := Nat.div_lt_self (by omega) (by omega)
          omega
        rw [ih hdiv, charToDigit_digitToChar (Nat.mod_lt n (by omega))]
        omega

theorem parseNatChars_natToChars (n : Nat) : parseNatChars (natToChars n) = n :=
  parseNatChars_natToCharsAux (Nat.lt_succ_self n)

theorem natToChars_digits (n : Nat) : ∀ c ∈ natToChars n, c.isDigit = true :=
  natToCharsAux_digits (n + 1) n

theorem natToChars_ne_nil (n : Nat) : natToChars n ≠ [] :=
  natToCharsAux_ne_nil (Nat.lt_succ_self n)

theorem isYamlIntLit_intToChars (i : Int) : isYamlIntLit (intToChars i) = true := by
  unfold intToChars
  split
  · show isYamlIntLit ('-' :: natToChars (-i).toNat) = true
    simp only [isYamlIntLit, if_true]
    rw [Bool.and_eq_true]
    refine ⟨by simp [List.isEmpty_iff, natToChars_ne_nil], ?_⟩
    exact List.all_eq_true.mpr fun c hc => natToChars_digits _ c hc
  · cases hn : natToChars i.toNat with
    | nil => exact absurd hn (natToChars_ne_nil _)
    | cons c rest =>
        have hcd : c.isDigit = true := natToChars_digits i.toNat c (hn ▸ List.mem_cons_self ..)
        have hcne : c ≠ '-' := by
          intro h
          rw [h] at hcd
          simp at hcd
        simp only [isYamlIntLit, if_neg hcne, Bool.and_eq_true]
        refine ⟨by simp, ?_⟩
        exact List.all_eq_true.mpr fun x hx => natToChars_digits i.toNat x (hn ▸ hx)

theorem intToChars_head (i : Int) :
    ∃ c cs, intToChars i = c :: cs ∧ (c.isDigit = true ∨ c = '-') := by
  unfold intToChars
  split
  · exact ⟨'-', natToChars (-i).toNat, rfl, Or.inr rfl⟩
  · cases hn : natToChars i.toNat with
    | nil => exact absurd hn (natToChars_ne_nil _)
    | cons c rest =>
        exact ⟨c, rest, rfl,
          Or.inl (natToChars_digits i.toNat c (hn ▸ List.mem_cons_self ..))⟩

theorem intToChars_ne_bool_lits (i : Int) :
    intToChars i ≠ "true".toList ∧ intToChars i ≠ "false".toList := by
  obtain ⟨c, cs, heq, hc⟩ := intToChars_head i
  constructor
  · intro h
    rw [h] at heq
    injection heq with h1 _
    rcases hc with hd | hm
    · rw [← h1] at hd
      simp at hd
    · rw [← h1] at hm
      simp at hm
  · intro h
    rw [h] at heq
    injection heq with h1 _
    rcases hc with hd | hm
    · rw [← h1] at hd
      simp at hd
    · rw [← h1] at hm
      simp at hm

theorem parseIntChars_intToChars (i : Int) : parseIntChars (intToChars i) = i := by
  unfold intToChars
  split
  · rename_i hneg
    show parseIntChars ('-' :: natToChars (-i).toNat) = i
    simp only [parseIntChars, if_true]
    rw [parseNatChars_natToChars]
    omega
  · rename_i hpos
    cases hn : natToChars i.toNat with
    | nil => exact absurd hn (natToChars_ne_nil _)
    | cons c rest =>
        have hcd : c.isDigit = true := natToChars_digits i.toNat c (hn ▸ List.mem_cons_self ..)
        have hcne : c ≠ '-' := by
          intro h
          rw [h] at hcd
          simp at hcd
        simp only [parseIntChars, if_neg hcne]
        rw [← hn, parseNatChars_natToChars]
        omega

theorem parseScalar_encValue (v : Value) (hv : wfValueChars v = true) :
    parseScalar (encValue v) = v := by
  cases v with
  | vbool b => cases b <;> decide
  | vint i =>
      show parseScalar (intToChars i) = Value.vint i
      unfold parseScalar
      rw [if_neg (intToChars_ne_bool_lits i).1, if_neg (intToChars_ne_bool_lits i).2,
        if_pos (isYamlIntLit_intToChars i), parseIntChars_intToChars]
  | vstr s =>
      simp only [wfValueChars, Bool.and_eq_true] at hv
      obtain ⟨hnl, hnq⟩ := hv
      have hqs : '\x27' ∉ s := by
        intro h
        rw [show s.contains '\x27' = true from List.elem_eq_true_of_mem h] at hnq
        simp at hnq
      show parseScalar (encValue (Value.vstr s)) = Value.vstr s
      simp only [encValue]
      split
      · rename_i hq
        have hne1 : ('\x27' :: (s ++ ['\x27'])) ≠ "true".toList := by
          intro h
          injection h with h1 _
          exact absurd h1 (by decide)
        have hne2 : ('\x27' :: (s ++ ['\x27'])) ≠ "false".toList := by
          intro h
          injection h with h1 _
          exact absurd h1 (by decide)
        have hlit : isYamlIntLit ('\x27' :: (s ++ ['\x27'])) = false := by
          simp only [isYamlIntLit]
          rw [if_neg (by decide)]
          simp
        unfold parseScalar
        rw [if_neg hne1, if_neg hne2, hlit]
        simp only [Bool.false_eq_true, if_false, if_true]
        congr 1
        simp
      · rename_i hq
        rw [Bool.not_eq_true] at hq
        unfold needsQuotingChars at hq
        simp only [Bool.or_eq_false_iff] at hq
        obtain ⟨⟨⟨⟨hemp, htr⟩, hfa⟩, hlit⟩, hquo⟩ := hq
        cases hs : s with
        | nil => rw [hs] at hemp; simp at hemp
        | cons c rest =>
            have hcq : c ≠ '\x27' := by
              rw [hs] at hquo
              simp only [decide_eq_false_iff_not] at hquo
              exact hquo
            unfold parseScalar
            rw [if_neg (by rw [← hs]; exact fun h => by rw [h] at htr; simp at htr),
              if_neg (by rw [← hs]; exact fun h => by rw [h] at hfa; simp at hfa)]
            rw [← hs, hlit]
            simp only [Bool.false_eq_true, if_false]
            rw [hs]
            show (if c = '\x27' then Value.vstr rest.dropLast
              else Value.vstr (c :: rest)) = Value.vstr (c :: rest)
            rw [if_neg hcq]

theorem not_mem_of_contains_false {s : List Char} {a : Char}
    (h : (!s.contains a) = true) : a ∉ s := by
  intro hmem
  rw [show s.contains a = true from List.elem_eq_true_of_mem hmem] at h
  simp at h

theorem intToChars_mem (i : Int) : ∀ c ∈ intToChars i, c.isDigit = true ∨ c = '-' := by
  intro c hc
  unfold intToChars at hc
  split at hc
  · rcases List.mem_cons.mp hc with h | h
    · exact Or.inr h
    · exact Or.inl (natToChars_digits _ c h)
  · exact Or.inl (natToChars_digits _ c hc)

theorem encValue_no_newline (v : Value) (hv : wfValueChars v = true) :
    '\n' ∉ encValue v := by
  cases v with
  | vbool b => cases b <;> decide
  | vint i =>
      intro hmem
      rcases intToChars_mem i '\n' hmem with h | h <;> simp at h
  | vstr s =>
      simp only [wfValueChars, Bool.and_eq_true] at hv
      have hnl := not_mem_of_contains_false hv.1
      simp only [encValue]
      split
      · intro hmem
        rcases List.mem_cons.mp hmem with h | h
        · exact absurd h.symm (by decide)
        · rcases List.mem_append.mp h with h2 | h2
          · exact hnl h2
          · simp only [List.mem_singleton] at h2
            exact absurd h2.symm (by decide)
      · exact hnl

theorem wfKey_not_special {k : List Char} (hk : wfKeyChars k = true) :
    ∀ c ∈ k, c ≠ '\n' ∧ c ≠ ':' ∧ c ≠ ' ' ∧ c ≠ '#' := by
  simp only [wfKeyChars, Bool.and_eq_true, List.all_eq_true] at hk
  intro c hc
  have h := hk.2 c hc
  refine ⟨?_, ?_, ?_, ?_⟩ <;> intro heq <;> rw [heq] at h <;> simp at h

theorem wfKey_ne_nil {k : List Char} (hk : wfKeyChars k = true) : k ≠ [] := by
  simp only [wfKeyChars, Bool.and_eq_true] at hk
  simpa [List.isEmpty_iff] using hk.1

theorem parseLineChars_wf_line {k : List Char} {v : Value}
    (hk : wfKeyChars k = true) (hv : wfValueChars v = true) :
    parseLineChars (k ++ ':' :: ' ' :: encValue v) = some (k, v) := by
  unfold parseLineChars
  rw [takeWhile_all_append_cons ':' (' ' :: encValue v)
      (fun c hc => decide_eq_true (wfKey_not_special hk c hc).2.1) (by decide),
    dropWhile_all_append_cons ':' (' ' :: encValue v)
      (fun c hc => decide_eq_true (wfKey_not_special hk c hc).2.1) (by decide)]
  show (if (':' : Char) = ':' && (' ' : Char) = ' ' then
      some (k, parseScalar (encValue v)) else none) = some (k, v)
  rw [if_pos (by decide), parseScalar_encValue v hv]

theorem wf_line_not_blankOrComment {k : List Char} (rest : List Char)
    (hk : wfKeyChars k = true) :
    isBlankOrCommentLine (k ++ rest) = false := by
  cases hke : k with
  | nil => exact absurd hke (wfKey_ne_nil hk)
  | cons c k2 =>
      have hspec := wfKey_not_special hk c (hke ▸ List.mem_cons_self ..)
      unfold isBlankOrCommentLine
      rw [List.cons_append, List.dropWhile_cons,
        if_neg (by simpa using hspec.2.2.1)]
      simpa using hspec.2.2.2

theorem wf_line_no_newline {k : List Char} {v : Value}
    (hk : wfKeyChars k = true) (hv : wfValueChars v = true) :
    '\n' ∉ k ++ ':' :: ' ' :: encValue v := by
  intro hmem
  rcases List.mem_append.mp hmem with h | h
  · exact (wfKey_not_special hk '\n' h).1 rfl
  · rcases List.mem_cons.mp h with h2 | h2
    · exact absurd h2.symm (by decide)
    · rcases List.mem_cons.mp h2 with h3 | h3
      · exact absurd h3.symm (by decide)
      · exact encValue_no_newline v hv h3

theorem parseYamlDoc_cons_wf_line {k : List Char} {v : Value} (rest : List Char)
    (hk : wfKeyChars k = true) (hv : wfValueChars v = true) :
    parseYamlDoc ((k ++ ':' :: ' ' :: encValue v) ++ '\n' :: rest) =
      (k, v) :: parseYamlDoc rest := by
  unfold parseYamlDoc
  rw [splitLines_append_newline _ rest (wf_line_no_newline hk hv)]
  rw [List.filterMap_cons]
  rw [wf_line_not_blankOrComment (':' :: ' ' :: encValue v) hk]
  simp only [Bool.false_eq_true, if_false]
  rw [parseLineChars_wf_line hk hv]

theorem parseYamlDoc_dump_append (m : List (List Char × Value)) (rest : List Char)
    (hwf : ∀ kv ∈ m, wfKeyChars kv.1 = true ∧ wfValueChars kv.2 = true) :
    parseYamlDoc (yamlDumpMap m ++ rest) = m ++ parseYamlDoc rest := by
  induction m with
  | nil => simp [yamlDumpMap]
  | cons kv m2 ih =>
      obtain ⟨k, v⟩ := kv
      have hkv := hwf (k, v) (List.mem_cons_self ..)
      have harr : yamlDumpMap ((k, v) :: m2) ++ rest =
          (k ++ ':' :: ' ' :: encValue v) ++ '\n' :: (yamlDumpMap m2 ++ rest) := by
        show (k ++ ':' :: ' ' :: (encValue v ++ ['\n'])) ++ yamlDumpMap m2 ++ rest = _
        simp [List.append_assoc]
      rw [harr, parseYamlDoc_cons_wf_line _ hkv.1 hkv.2,
        ih fun kv2 h2 => hwf kv2 (List.mem_cons_of_mem _ h2)]
      rfl

theorem filterMap_parse_wf_lines (m : List (List Char × Value))
    (hwf : ∀ kv ∈ m, wfKeyChars kv.1 = true ∧ wfValueChars kv.2 = true) :
    (m.map fun kv => kv.1 ++ ':' :: ' ' :: encValue kv.2).filterMap
      (fun ln => if isBlankOrCommentLine ln then none else parseLineChars ln) = m := by
  induction m with
  | nil => rfl
  | cons kv m2 ih =>
      obtain ⟨k, v⟩ := kv
      have hkv := hwf (k, v) (List.mem_cons_self ..)
      rw [List.map_cons, List.filterMap_cons,
        wf_line_not_blankOrComment (':' :: ' ' :: encValue v) hkv.1]
      simp only [Bool.false_eq_true, if_false]
      rw [parseLineChars_wf_line hkv.1 hkv.2,
        ih fun kv2 h2 => hwf kv2 (List.mem_cons_of_mem _ h2)]

theorem parseYamlDoc_bodyLines (genvals : List (List Char × Value))
    (hwf : ∀ kv ∈ genvals, wfKeyChars kv.1 = true ∧ wfValueChars kv.2 = true) :
    parseYamlDoc (bodyLinesOf genvals) = genvals := by
  cases hg : genvals with
  | nil => decide
  | cons kv g2 =>
      unfold bodyLinesOf parseYamlDoc
      rw [splitLines_intercalate _ (by simp) ?hnl]
      case hnl =>
        intro ln hln
        simp only [List.mem_map] at hln
        obtain ⟨kv2, hkv2, rfl⟩ := hln
        have h2 := hwf kv2 (hg ▸ hkv2)
        exact wf_line_no_newline h2.1 h2.2
      exact filterMap_parse_wf_lines _ fun kv2 h2 => hwf kv2 (hg ▸ h2)

theorem lookup_eq_of_mem_nodup {k : List Char} {v : Value}
    {m : List (List Char × Value)} (hnd : (m.map Prod.fst).Nodup)
    (hmem : (k, v) ∈ m) : List.lookup k m = some v := by
  induction m with
  | nil => simp at hmem
  | cons kv m2 ih =>
      obtain ⟨k2, v2⟩ := kv
      rcases List.mem_cons.mp hmem with h | h
      · injection h with h1 h2
        subst h1; subst h2
        simp [List.lookup]
      · have hk2 : k ≠ k2 := by
          intro heq
          subst heq
          have : k ∈ m2.map Prod.fst := List.mem_map.mpr ⟨(k, v), h, rfl⟩
          exact (List.nodup_cons.mp hnd).1 this
        rw [List.lookup, show (k == k2) = false from beq_eq_false_iff_ne.mpr hk2]
        exact ih (List.nodup_cons.mp hnd).2 h

theorem lookup_append_left {k : List Char} {v : Value}
    {m rest : List (List Char × Value)} (h : List.lookup k m = some v) :
    List.lookup k (m ++ rest) = some v := by
  induction m with
  | nil => simp [List.lookup] at h
  | cons kv m2 ih =>
      rw [List.cons_append, List.lookup]
      rw [List.lookup] at h
      split at h
      · exact h
      · exact ih h

theorem lookup_mkPydanticInstance {names : List (List Char)}
    {m : List (List Char × Value)} {k : List Char} {v : Value}
    (hk : k ∈ names) (hv : List.lookup k m = some v) :
    List.lookup k (mkPydanticInstance names m) = some v := by
  induction names with
  | nil => simp at hk
  | cons n ns ih =>
      unfold mkPydanticInstance
      rw [List.filterMap_cons]
      by_cases heq : k = n
      · subst heq
        rw [hv]
        simp [List.lookup]
      · rcases List.mem_cons.mp hk with h | h
        · exact absurd h heq
        · cases hlo : List.lookup n m with
          | none => exact ih h
          | some w =>
              simp only [Option.map_some']
              rw [List.lookup, show (k == n) = false from beq_eq_false_iff_ne.mpr heq]
              exact ih h

theorem extract_structured_transcript (lm0 mid : List Char)
    (hno : noOccAfter (lm0 ++ yamlStartMarker ++ mid ++ yamlEndMarker)
      yamlStartMarker lm0.length) :
    extractYamlContent (lm0 ++ yamlStartMarker ++ mid ++ yamlEndMarker) = mid := by
  set t := lm0 ++ yamlStartMarker ++ mid ++ yamlEndMarker with ht
  have hlen : t.length = lm0.length + 9 + mid.length + 4 := by
    rw [ht]
    simp [yamlStartMarker, yamlEndMarker]
    omega
  have hoccS : occursAtB t yamlStartMarker lm0.length = true := by
    unfold occursAtB
    rw [ht, List.append_assoc, List.append_assoc, List.drop_left]
    rw [← List.append_assoc]
    exact List.isPrefixOf_iff_prefix.mpr (List.prefix_append ..)
  have hlastS : IsLastOccurrence t yamlStartMarker lm0.length := by
    refine ⟨hoccS, fun j hj hocc => ?_⟩
    by_contra hgt
    push_neg at hgt
    exact absurd hocc (by rw [hno j hgt hj]; simp)
  have hoccE : occursAtB t yamlEndMarker (lm0.length + 9 + mid.length) = true := by
    unfold occursAtB
    have harr : t = (lm0 ++ yamlStartMarker ++ mid) ++ yamlEndMarker := ht
    have hlen2 : (lm0 ++ yamlStartMarker ++ mid).length = lm0.length + 9 + mid.length := by
      simp [yamlStartMarker]
      omega
    rw [harr, ← hlen2, List.drop_left]
    exact List.isPrefixOf_iff_prefix.mpr (List.prefix_refl _)
  have hlastE : IsLastOccurrence t yamlEndMarker (lm0.length + 9 + mid.length) := by
    refine ⟨hoccE, fun j hj hocc => ?_⟩
    have := occursAtB_add_length_le (by decide) hocc
    have h4 : yamlEndMarker.length = 4 := by decide
    omega
  rw [extractYamlContent_eq_between hlastS hlastE]
  have h9 : yamlStartMarker.length = 9 := by decide
  rw [h9]
  have hdrop : t.drop (lm0.length + 9) = mid ++ yamlEndMarker := by
    have harr : t = (lm0 ++ yamlStartMarker) ++ (mid ++ yamlEndMarker) := by
      rw [ht]; simp [List.append_assoc]
    have hlen2 : (lm0 ++ yamlStartMarker).length = lm0.length + 9 := by
      simp [yamlStartMarker]
    rw [harr, ← hlen2, List.drop_left]
  rw [hdrop]
  have : lm0.length + 9 + mid.length - (lm0.length + 9) = mid.length := by omega
  rw [this]
  exact List.take_left ..

theorem genObjectFields_skip_eq_filter (σ : StrState) (fields : List PyField)
    (depth : Nat) (skip : List String) :
    ∀ indentation trailingNewline,
      genObjectFields σ fields depth indentation trailingNewline skip =
        genObjectFields σ (fields.filter fun f => decide (f.1 ∉ skip)) depth
          indentation trailingNewline [] := by
  induction fields with
  | nil => intro ind tr; simp [genObjectFields]
  | cons fld rest ih =>
      intro ind tr
      obtain ⟨name, req, meta, ann⟩ := fld
      by_cases hmem : name ∈ skip
      · rw [show genObjectFields σ ((name, req, meta, ann) :: rest) depth ind tr skip =
            genObjectFields σ rest depth ind tr skip by
          simp only [genObjectFields, if_pos hmem]]
        rw [show ((name, req, meta, ann) :: rest).filter (fun f => decide (f.1 ∉ skip)) =
            rest.filter fun f => decide (f.1 ∉ skip) by
          simp [List.filter_cons, hmem]]
        exact ih ind tr
      · rw [show ((name, req, meta, ann) :: rest).filter (fun f => decide (f.1 ∉ skip)) =
            (name, req, meta, ann) :: rest.filter fun f => decide (f.1 ∉ skip) by
          simp [List.filter_cons, hmem]]
        simp only [genObjectFields, if_neg hmem,
          if_neg (by simp : ¬ name ∈ ([] : List String))]
        rw [ih]

set_option synthInstance.maxHeartbeats 1000000 in
/-- C1: for a record schema and a pre-fill map whose keys are a subset of
its field names, the orchestrator's transcript carries the literal YAML
dump of the pre-filled values between the start marker and the generated
remainder; with the pre-fill map's key set as skip-set the Object Compiler
produces exactly the grammar of the schema with those fields removed (so no
fragment is compiled for any pre-filled name); and after marker extraction,
YAML parsing, and instance construction, every pre-filled field of the
instance holds exactly the supplied value.  `genvals` ranges over whatever
well-formed values the engine generated for the remaining fields. -/
theorem c1_prefill_serialized_skipped_and_preserved (σ : StrState) (lm0 : List Char) (fields : List PyField)
    (kwargs genvals : List (List Char × Value))
    (hkwnd : (kwargs.map Prod.fst).Nodup)
    (hkwsub : ∀ k ∈ kwargs.map Prod.fst, k ∈ fields.map fun f => f.1.toList)
    (hkwwf : ∀ kv ∈ kwargs, wfKeyChars kv.1 = true ∧ wfValueChars kv.2 = true)
    (hgenwf : ∀ kv ∈ genvals, wfKeyChars kv.1 = true ∧ wfValueChars kv.2 = true)
    (hno : noOccAfter (pydanticTranscript lm0 kwargs (bodyLinesOf genvals))
      yamlStartMarker lm0.length) :
    (∀ kv ∈ kwargs,
      List.lookup kv.1
        (mkPydanticInstance (fields.map fun f => f.1.toList)
          (pydanticParsedMap (pydanticTranscript lm0 kwargs (bodyLinesOf genvals)))) =
        some kv.2) ∧
    generateObject σ fields 0 "" (kwargs.map fun kv => String.mk kv.1) =
      generateObject σ
        (fields.filter fun f => decide (f.1 ∉ kwargs.map fun kv => String.mk kv.1))
        0 "" [] ∧
    (∀ f ∈ fields.filter fun f => decide (f.1 ∉ kwargs.map fun kv => String.mk kv.1),
      f.1 ∉ kwargs.map fun kv => String.mk kv.1) := by
  refine ⟨?_, ?_, ?_⟩
  · intro kv hkv
    have hkwne : kwargs.isEmpty = false := by
      cases kwargs with
      | nil => simp at hkv
      | cons a b => rfl
    have htr : pydanticTranscript lm0 kwargs (bodyLinesOf genvals) =
        lm0 ++ yamlStartMarker ++
          (yamlDumpMap kwargs ++ bodyLinesOf genvals) ++ yamlEndMarker := by
      unfold pydanticTranscript
      rw [if_neg (by simp [hkwne])]
      simp [List.append_assoc]
    rw [htr] at hno ⊢
    unfold pydanticParsedMap
    rw [extract_structured_transcript lm0 _ hno]
    rw [parseYamlDoc_dump_append kwargs _ hkwwf, parseYamlDoc_bodyLines genvals hgenwf]
    have hlook : List.lookup kv.1 (kwargs ++ genvals) = some kv.2 :=
      lookup_append_left (lookup_eq_of_mem_nodup hkwnd hkv)
    exact lookup_mkPydanticInstance
      (hkwsub kv.1 (List.mem_map.mpr ⟨kv, hkv, rfl⟩)) hlook
  · unfold generateObject
    exact genObjectFields_skip_eq_filter σ fields 0 _ _ _
  · intro f hf
    have := List.of_mem_filter hf
    simpa using this

/-- C1 witness: schema `(age, name)` with `age` pre-filled to `30` and the
engine generating `name: Jack`. -/
theorem c1_prefill_witness :
    noOccAfter
      (pydanticTranscript [] [("age".toList, Value.vint 30)]
        (bodyLinesOf [("name".toList, Value.vstr "Jack".toList)]))
      yamlStartMarker ([] : List Char).length ∧
    ((∀ kv ∈ [("age".toList, Value.vint 30)],
      List.lookup kv.1
        (mkPydanticInstance
          ([("age", true, ([] : List String), PyType.tInt),
            ("name", true, ([] : List String), PyType.tStr)].map fun f => f.1.toList)
          (pydanticParsedMap
            (pydanticTranscript [] [("age".toList, Value.vint 30)]
              (bodyLinesOf [("name".toList, Value.vstr "Jack".toList)])))) =
        some kv.2) ∧
    generateObject initStrState
        [("age", true, ([] : List String), PyType.tInt),
          ("name", true, ([] : List String), PyType.tStr)] 0 ""
        ([("age".toList, Value.vint 30)].map fun kv => String.mk kv.1) =
      generateObject initStrState
        ([("age", true, ([] : List String), PyType.tInt),
          ("name", true, ([] : List String), PyType.tStr)].filter fun f =>
            decide (f.1 ∉ [("age".toList, Value.vint 30)].map fun kv => String.mk kv.1))
        0 "" [] ∧
    (∀ f ∈ [("age", true, ([] : List String), PyType.tInt),
          ("name", true, ([] : List String), PyType.tStr)].filter fun f =>
            decide (f.1 ∉ [("age".toList, Value.vint 30)].map fun kv => String.mk kv.1),
      f.1 ∉ [("age".toList, Value.vint 30)].map fun kv => String.mk kv.1)) :=
  ⟨by decide,
    c1_prefill_serialized_skipped_and_preserved initStrState [] _ [("age".toList, Value.vint 30)]
      [("name".toList, Value.vstr "Jack".toList)]
      (by decide) (by decide) (by decide) (by decide) (by decide)⟩
